import Mathlib

/-!
Verification of the PII detection and redaction engine in
backend/python_model/process.py.

The Python source is shallowly embedded: a Python str is a List Char, the
external named-entity-recognition model is an oracle parameter of type
List Char -> Except String (List Entity) (the response list of the pipeline
call, or the exception it raised), and each file processor is embedded as a
pure function over an abstract view of its container (the ordered list of
text fragments the format library yields) together with an explicit output
action describing what is written to the output path.

The regular expression EMAIL_PATTERN from line 70 of process.py,
  \b[A-Za-z0-9._%+-]+@[A-Za-z0-9.-]+\.[A-Z|a-z]{2,}\b
is embedded as an executable leftmost, greedy, backtracking matcher over
ASCII text, mirroring Python re semantics for this concrete pattern (the
pipe inside the last class is a literal class member).  Word characters,
whitespace and the character classes are the ASCII fragments of Python's
Unicode definitions; all inputs considered here are ASCII.
-/

namespace FileCleanse

/-- Python re word character (ASCII fragment of the class matched by a word
boundary test): letters, digits, underscore. -/
def isWordChar (c : Char) : Bool := c.isAlpha || c.isDigit || c = '_'

/-- Characters of the local-part class A-Za-z0-9._%+- of EMAIL_PATTERN. -/
def isLocalChar (c : Char) : Bool :=
  c.isAlpha || c.isDigit || c = '.' || c = '_' || c = '%' || c = '+' || c = '-'

/-- Characters of the domain class A-Za-z0-9.- of EMAIL_PATTERN. -/
def isDomainChar (c : Char) : Bool := c.isAlpha || c.isDigit || c = '.' || c = '-'

/-- Characters of the final class A-Z|a-z of EMAIL_PATTERN (the pipe is a
literal member of the class). -/
def isTldChar (c : Char) : Bool := c.isAlpha || c = '|'

/-- ASCII whitespace, as stripped by Python str.strip. -/
def isSpaceChar (c : Char) : Bool :=
  c = ' ' || c = '\t' || c = '\n' || c = '\r' || c = '\x0b' || c = '\x0c'

/-- Length of the maximal run of characters satisfying p at the head of a
list. -/
def runLenAux (p : Char → Bool) : List Char → Nat
  | [] => 0
  | c :: r => if p c then runLenAux p r + 1 else 0

/-- Word-character test of the character at index i, false past the end. -/
def wordAtS (s : List Char) (i : Nat) : Bool :=
  match s[i]? with
  | some c => isWordChar c
  | none => false

/-- Word-character test of the character just before index i of s, where
prevW is the word-character status of the character preceding s itself. -/
def prevAtS (prevW : Bool) (s : List Char) (i : Nat) : Bool :=
  match i with
  | 0 => prevW
  | j + 1 => wordAtS s j

/-- Python re word-boundary test between positions i-1 and i of s, with
prevW the word status of the character before s. -/
def boundS (prevW : Bool) (s : List Char) (i : Nat) : Bool :=
  prevAtS prevW s i != wordAtS s i

/-- Backtracking search for the greedy tail of EMAIL_PATTERN: given the
position r just after the final dot, try final-class run lengths from u
downwards (at least 2) until the trailing word boundary holds. -/
def tldSearchS (prevW : Bool) (s : List Char) (r : Nat) : Nat → Option Nat
  | 0 => none
  | u + 1 =>
    if 2 ≤ u + 1 && boundS prevW s (r + u + 1) then some (r + u + 1)
    else tldSearchS prevW s r u

/-- Backtracking search for the domain part of EMAIL_PATTERN: given the
position q just after the at sign, try domain lengths k+1 downwards,
requiring a literal dot after the domain and a successful final part. -/
def domSearchS (prevW : Bool) (s : List Char) (q : Nat) : Nat → Option Nat
  | 0 => none
  | k + 1 =>
    if s[q + k + 1]? = some '.' then
      match tldSearchS prevW s (q + k + 2)
          (runLenAux isTldChar (s.drop (q + k + 2))) with
      | some e => some e
      | none => domSearchS prevW s q k
    else domSearchS prevW s q k

/-- Attempt to match EMAIL_PATTERN at the start of suffix s, where prevW is
the word status of the character before s.  Returns the exclusive end
offset of the leftmost-greedy match, relative to s.  The local-part run is
necessarily maximal because the at sign is not a local character. -/
def matchS (prevW : Bool) (s : List Char) : Option Nat :=
  if !boundS prevW s 0 then none
  else
    let l := runLenAux isLocalChar s
    if l = 0 then none
    else if s[l]? ≠ some '@' then none
    else domSearchS prevW s (l + 1) (runLenAux isDomainChar (s.drop (l + 1)))

/-- Word status of the character at index p-1 of cs (false at p = 0). -/
def prevWord (cs : List Char) (p : Nat) : Bool :=
  match p with
  | 0 => false
  | j + 1 => wordAtS cs j

/-- Attempt to match EMAIL_PATTERN at absolute position p of cs, returning
the absolute exclusive end position. -/
def emailMatchAt (cs : List Char) (p : Nat) : Option Nat :=
  (matchS (prevWord cs p) (cs.drop p)).map (fun e => p + e)

/-- One scanning pass of the pattern over cs from position p, as performed
by Python re.findall and re.sub: try each position left to right, and
resume after the end of each match.  The fuel argument bounds the number
of steps; cs.length + 1 always suffices. -/
def emailScan (cs : List Char) : Nat → Nat → List (Nat × Nat)
  | 0, _ => []
  | fuel + 1, p =>
    if cs.length ≤ p then []
    else
      match emailMatchAt cs p with
      | some e => (p, e) :: emailScan cs fuel e
      | none => emailScan cs fuel (p + 1)

/-- All non-overlapping matches of EMAIL_PATTERN in cs, leftmost first, as
start and exclusive end positions.  Their number is what
len(EMAIL_PATTERN.findall(text)) computes. -/
def emailRanges (cs : List Char) : List (Nat × Nat) := emailScan cs (cs.length + 1) 0

/-- The sublist of cs from index a (inclusive) to b (exclusive). -/
def slice (cs : List Char) (a b : Nat) : List Char := (cs.take b).drop a

/-- Rebuild a string from cs by replacing each of the given ranges with the
placeholder, keeping the text in between; pos is the current copy
position. -/
def emailSubAux (cs : List Char) : List (Nat × Nat) → Nat → List Char
  | [], pos => cs.drop pos
  | (s, e) :: rest, pos => slice cs pos s ++ "[REDACTED]".data ++ emailSubAux cs rest e

/-- EMAIL_PATTERN.sub of the placeholder over cs (line 129 of process.py). -/
def emailSubList (cs : List Char) : List Char := emailSubAux cs (emailRanges cs) 0

/-- One entity dictionary of the NER pipeline response: the values of its
start, end and entity_group items (start and end may be absent). -/
structure Entity where
  startPos : Option Nat
  endPos : Option Nat
  group : String
deriving DecidableEq, Repr

/-- The five counters of the pii_counts dictionary built at line 110. -/
structure Counts where
  person : Nat
  organization : Nat
  location : Nat
  email : Nat
  phone : Nat
deriving DecidableEq, Repr

def zeroCounts : Counts := ⟨0, 0, 0, 0, 0⟩

/-- Python list slice assignment redacted[start:end] = "[REDACTED]" on a
list of characters: indices clamp at the ends as in Python. -/
def spliceRed (cs : List Char) (s e : Nat) : List Char :=
  cs.take s ++ "[REDACTED]".data ++ cs.drop e

/-- Membership test group in ("PER", "ORG", "LOC") from line 116. -/
def entGroupQualifies (g : String) : Bool := g = "PER" || g = "ORG" || g = "LOC"

/-- Counter increments of lines 118-123. -/
def bumpCounts (c : Counts) (g : String) : Counts :=
  if g = "PER" then { c with person := c.person + 1 }
  else if g = "ORG" then { c with organization := c.organization + 1 }
  else { c with location := c.location + 1 }

/-- One iteration of the entity loop of lines 113-123. -/
def applyEnt (acc : List Char × Counts) (ent : Entity) : List Char × Counts :=
  match ent.startPos, ent.endPos with
  | some s, some e =>
    if entGroupQualifies ent.group ∧ s < e then
      (spliceRed acc.1 s e, bumpCounts acc.2 ent.group)
    else acc
  | _, _ => acc

/-- The entity loop of lines 113-123: iterate over reversed(entities),
splicing the placeholder over each qualifying span of the evolving
character list and counting per category. -/
def applyEntities (es : List Entity) (cs : List Char) : List Char × Counts :=
  es.reverse.foldl applyEnt (cs, zeroCounts)

/-- One vulnerability finding: description and severity. -/
structure Finding where
  description : String
  severity : String
deriving DecidableEq, Repr

/-- The piiDetected mapping, as an insertion-ordered association list
mirroring a Python dict. -/
abbrev PiiDict := List (String × Nat)

/-- The five-key dictionary literal of line 110 with final counter values. -/
def fiveDict (c : Counts) : PiiDict :=
  [("person", c.person), ("organization", c.organization),
   ("location", c.location), ("email", c.email), ("phone", c.phone)]

/-- The findings accumulated at lines 131-136. -/
def countVulns (c : Counts) : List Finding :=
  (if 0 < c.person then
    [⟨"Detected " ++ toString c.person ++ " person names.", "High"⟩] else []) ++
  (if 0 < c.organization then
    [⟨"Detected " ++ toString c.organization ++ " organization names.", "Medium"⟩] else []) ++
  (if 0 < c.email then
    [⟨"Found " ++ toString c.email ++ " email addresses.", "High"⟩] else [])

/-- Python truth test "not text.strip()": all characters are whitespace
(including the empty string). -/
def isBlank (cs : List Char) : Bool := cs.all isSpaceChar

/-- analyze_and_redact_text_once (lines 95-138): guard on blank input, call
the NER oracle once, splice the placeholder over qualifying entity spans
right to left, count and substitute email-pattern matches, and build the
findings. -/
def analyze_and_redact_text_once
    (ner : List Char → Except String (List Entity)) (text : List Char) :
    List Char × PiiDict × List Finding :=
  if isBlank text then (text, [], [])
  else
    match ner text with
    | .error e => (text, [], [⟨"NER failed: " ++ e, "High"⟩])
    | .ok entities =>
      let p := applyEntities entities text
      let emailsFound := (emailRanges p.1).length
      let c : Counts := { p.2 with email := emailsFound }
      (emailSubList p.1, fiveDict c, countVulns c)

/-- Python str.split of a newline separator: split at every newline,
keeping empty pieces (the result always has one more piece than there are
newlines). -/
def splitNl : List Char → List (List Char)
  | [] => [[]]
  | c :: r =>
    if c = '\n' then [] :: splitNl r
    else
      match splitNl r with
      | [] => [[c]]
      | h :: t => (c :: h) :: t

/-- The inverse join with a newline separator, as performed by
"\n".join(blocks). -/
def joinNl : List (List Char) → List Char
  | [] => []
  | [b] => b
  | b :: bs => b ++ '\n' :: joinNl bs

/-- redact_using_map (lines 92-93) over the redaction map of lines
206-209: Python inserts each (orig, red) pair only when orig is not yet a
key, so lookup of the first matching pair in the zipped list is exactly
the dict lookup with default. -/
def redact_using_map (m : List (List Char × List Char)) (orig : List Char) : List Char :=
  match m.find? (fun p => p.1 == orig) with
  | some p => p.2
  | none => orig

/-- What a file processor writes to its output path: a verbatim
byte-for-byte copy of the input (shutil.copy) or a re-serialization of the
mutated in-memory document (doc.save and friends). -/
inductive OutAction where
  | copyOriginal
  | saveNew
deriving DecidableEq, Repr

/-- Result of one document processor: the output action, the piiDetected
dictionary and the findings. -/
structure ProcResult where
  action : OutAction
  pii : PiiDict
  vulns : List Finding
deriving DecidableEq, Repr

/-- process_docx (lines 189-229) over an abstract container: openRes is
the outcome of docx.Document (the ordered paragraph texts, or the
exception), saveOk tells whether doc.save succeeds.  The structural walk
rewrites each non-blank paragraph through the redaction map; when nothing
changed the original file is copied verbatim. -/
def process_docx (ner : List Char → Except String (List Entity)) :
    Except String (List (List Char)) → Bool → ProcResult
  | .error e, _ => ⟨.copyOriginal, [], [⟨"Failed to open DOCX: " ++ e, "High"⟩]⟩
  | .ok blocks, saveOk =>
    if blocks = [] then ⟨.copyOriginal, [], []⟩
    else
      let full := joinNl blocks
      let r := analyze_and_redact_text_once ner full
      let redactedLines := splitNl r.1
      let rmap := blocks.zip redactedLines
      let newBlocks := blocks.map (fun b =>
        if b ≠ [] ∧ ¬ isBlank b then redact_using_map rmap b else b)
      if newBlocks ≠ blocks then
        if saveOk then ⟨.saveNew, r.2.1, r.2.2⟩
        else ⟨.copyOriginal, r.2.1, r.2.2 ++ [⟨"Failed to save DOCX", "High"⟩]⟩
      else ⟨.copyOriginal, r.2.1, r.2.2⟩

/-- process_pdf (lines 143-187) over an abstract container: openRes is the
outcome of fitz.open (the per-page texts, or the exception), saveOk tells
whether doc.save succeeds.  The output action is optional because the PDF
path, unlike every other processor, writes nothing at all when opening or
saving fails.  The per-page annotation pass (lines 160-178) only paints
redaction rectangles inside the document that is then saved; it does not
affect the returned counts, findings or the output action, and is elided
here. -/
def process_pdf (ner : List Char → Except String (List Entity)) :
    Except String (List (List Char)) → Bool →
      Option OutAction × PiiDict × List Finding
  | .error e, _ => (none, [], [⟨"Failed to open PDF: " ++ e, "High"⟩])
  | .ok pageTexts, saveOk =>
    let full := joinNl (pageTexts.filter (fun t => t ≠ [] ∧ ¬ isBlank t))
    let r := analyze_and_redact_text_once ner full
    if saveOk then (some .saveNew, r.2.1, r.2.2)
    else (none, r.2.1, r.2.2 ++ [⟨"Failed to save PDF", "High"⟩])

/-- One OCR word of the pytesseract output dictionary: its text, its
confidence and its bounding box. -/
structure OcrWord where
  text : List Char
  conf : Int
  left : Nat
  top : Nat
  width : Nat
  height : Nat
deriving DecidableEq, Repr

/-- OCR_CONF_THRESHOLD (line 40). -/
def OCR_CONF_THRESHOLD : Int := 60

/-- Join with single spaces, as performed by " ".join. -/
def joinSpace : List (List Char) → List Char
  | [] => []
  | [w] => w
  | w :: ws => w ++ ' ' :: joinSpace ws

/-- The text handed to the detector in process_image (line 383): the join
of every non-empty OCR word, with no confidence filtering. -/
def imageOcrText (words : List OcrWord) : List Char :=
  joinSpace ((words.map OcrWord.text).filter (fun t => t ≠ []))

/-- Python str.strip over ASCII whitespace. -/
def pyStrip (cs : List Char) : List Char :=
  ((cs.dropWhile isSpaceChar).reverse.dropWhile isSpaceChar).reverse

/-- Python str.split with no argument: split on whitespace runs, dropping
empty pieces. -/
def pySplitWsAux (acc : List Char) : List Char → List (List Char)
  | [] => if acc = [] then [] else [acc.reverse]
  | c :: r =>
    if isSpaceChar c then
      if acc = [] then pySplitWsAux [] r else acc.reverse :: pySplitWsAux [] r
    else pySplitWsAux (c :: acc) r

def pySplitWs (cs : List Char) : List (List Char) := pySplitWsAux [] cs

/-- The redacted_set of lines 384-391: tokens of the joined OCR text whose
counterpart in the token split of the redacted join differs. -/
def imageRedactedSet (ner : List Char → Except String (List Entity))
    (words : List OcrWord) : List (List Char) :=
  let t := imageOcrText words
  if isBlank t then []
  else
    let r := analyze_and_redact_text_once ner t
    ((pySplitWs t).zip (pySplitWs r.1)).filterMap
      (fun p => if p.1 ≠ p.2 then some p.1 else none)

/-- The per-word decision of lines 401-408, for a word that already passed
the confidence gate: strip it, skip it when empty, test membership in the
redacted set, and fall back to a per-word detector call. -/
def imagePaintDecision (ner : List Char → Except String (List Entity))
    (w : OcrWord) (rset : List (List Char)) : Bool :=
  let word := pyStrip w.text
  if word = [] then false
  else
    let mem := if rset ≠ [] then decide (word ∈ rset) else false
    if mem then true
    else decide ((analyze_and_redact_text_once ner word).1 ≠ word)

/-- The indices of OCR words painted over by the loop of lines 394-411: a
word is skipped outright when its confidence is below the threshold. -/
def imagePaintedIdx (ner : List Char → Except String (List Entity))
    (words : List OcrWord) : List Nat :=
  let rset := imageRedactedSet ner words
  (List.range words.length).filter (fun i =>
    match words[i]? with
    | some w =>
      if w.conf < OCR_CONF_THRESHOLD then false else imagePaintDecision ner w rset
    | none => false)

/-- Outcome of dispatching one file inside the worker's try block: either
the processor's data, or the exception it raised. -/
inductive WOutcome where
  | done (summary : String) (pii : PiiDict) (vulns : List Finding) (path : String)
  | crash (msg : String)
deriving Repr

/-- One file of the batch, with the isfile test outcome and the dispatch
outcome as oracles. -/
structure WFile where
  name : String
  ftype : String
  present : Bool
  outcome : WOutcome

/-- One FileResult record of the batch report. -/
structure FileRec where
  originalFileName : String
  fileType : String
  status : String
  summary : String
  piiDetected : PiiDict
  vulnerabilities : List Finding
  cleansedFilePath : Option String
deriving Repr

/-- process_single_file_worker (lines 434-488): returns None when the path
is not a file; otherwise always returns a record, with status error and a
single High-severity finding when the dispatch raised, so no exception
ever crosses the worker boundary. -/
def process_single_file_worker (f : WFile) : Option FileRec :=
  if ¬ f.present then none
  else some (match f.outcome with
    | .done summary pii vulns path =>
      { originalFileName := f.name, fileType := f.ftype, status := "completed",
        summary := summary, piiDetected := pii, vulnerabilities := vulns,
        cleansedFilePath := some path }
    | .crash msg =>
      { originalFileName := f.name, fileType := f.ftype, status := "error",
        summary := "An error occurred during processing.",
        piiDetected := [], vulnerabilities := [⟨"Critical error: " ++ msg, "High"⟩],
        cleansedFilePath := none })

/-- main_parallel (lines 490-507): one worker task per file, collecting
the per-file records.  The thread pool imposes no arrival order; the
per-file records are collected here in input order, which is one of the
admissible interleavings, and the per-file content is
interleaving-independent because tasks share no state. -/
def main_parallel (files : List WFile) : List FileRec :=
  files.filterMap process_single_file_worker

/-- Entities of a fixed qualifying group with the given concrete spans, as
the NER pipeline returns them (ascending start offsets). -/
def mkEntities (spans : List (Nat × Nat)) (g : String) : List Entity :=
  spans.map (fun p => ⟨some p.1, some p.2, g⟩)

/-- Validity of a span list of the claims: each span has start < end <=
length, and spans are ascending and non-overlapping (every later span
starts at or after the current end). -/
def spansOk (len : Nat) : List (Nat × Nat) → Bool
  | [] => true
  | (s, e) :: rest =>
    decide (s < e) && decide (e ≤ len) && rest.all (fun p => decide (e ≤ p.1))
      && spansOk len rest

/-- The region-by-region description of right-to-left placeholder
replacement for ascending non-overlapping spans: each span's region is
replaced by the placeholder and everything outside the spans is kept. -/
def expectedRedact : List Char → List (Nat × Nat) → List Char
  | cs, [] => cs
  | cs, (s, e) :: rest =>
    cs.take s ++ "[REDACTED]".data ++
      expectedRedact (cs.drop e) (rest.map (fun p => (p.1 - e, p.2 - e)))
termination_by _ spans => spans.length
decreasing_by simp [List.length_map]

/-- Modelled from the spec claim wording for C8 only: the join of only the
surviving OCR words, those whose confidence reaches the threshold.  The
code (line 383) joins all words instead; this definition exists to be
compared against imageOcrText. -/
def specSurvivingJoin (words : List OcrWord) : List Char :=
  joinSpace
    (((words.filter (fun w => OCR_CONF_THRESHOLD ≤ w.conf)).map OcrWord.text).filter
      (fun t => t ≠ []))

/-- An entity-recognizer oracle that always answers with no entities. -/
def nerNone : List Char → Except String (List Entity) := fun _ => .ok []

/-- The end-to-end scenario input text of the spec. -/
def janeText : List Char :=
  "Contact Jane Doe at jane.doe@example.com or 555-123-4567".data

/-- An entity-recognizer oracle for the scenario: it recognizes the span
of Jane Doe (offsets 8 to 16) as one person entity and nothing else. -/
def janeNer : List Char → Except String (List Entity) := fun t =>
  if t = janeText then .ok [⟨some 8, some 16, "PER"⟩] else .ok []

/-- The scenario run through the detect and apply primitive. -/
def janeOut : List Char × PiiDict × List Finding :=
  analyze_and_redact_text_once janeNer janeText

/-- An entity-recognizer oracle exhibiting non-idempotence: it tags the
whole input Bob as a person, and also tags the first character of the
placeholder text itself as a person. -/
def bobNer : List Char → Except String (List Entity) := fun t =>
  if t = "Bob".data then .ok [⟨some 0, some 3, "PER"⟩]
  else if t = "[REDACTED]".data then .ok [⟨some 0, some 1, "PER"⟩]
  else .ok []

/-- An entity-recognizer oracle whose single entity span covers the
newline at offset 2 of the joined text ab-newline-cd (offsets 1 to 4). -/
def crossNer : List Char → Except String (List Entity) := fun t =>
  if t = "ab\ncd".data then .ok [⟨some 1, some 4, "PER"⟩] else .ok []

/-- Whether a worker outcome is a raised exception. -/
def isCrashOutcome : WOutcome → Bool
  | .crash _ => true
  | .done .. => false

/-- The record a present file's worker returns, as a total function. -/
def workerRec (f : WFile) : FileRec :=
  match f.outcome with
  | .done summary pii vulns path =>
    { originalFileName := f.name, fileType := f.ftype, status := "completed",
      summary := summary, piiDetected := pii, vulnerabilities := vulns,
      cleansedFilePath := some path }
  | .crash msg =>
    { originalFileName := f.name, fileType := f.ftype, status := "error",
      summary := "An error occurred during processing.",
      piiDetected := [], vulnerabilities := [⟨"Critical error: " ++ msg, "High"⟩],
      cleansedFilePath := none }

/-- Placeholder record for positional access to the batch report. -/
def dummyRec : FileRec :=
  { originalFileName := "", fileType := "", status := "", summary := "",
    piiDetected := [], vulnerabilities := [], cleansedFilePath := none }

/-- A batch of five files of which exactly the third is corrupted: its
dispatch raises, the others complete. -/
def demoFiles : List WFile :=
  [⟨"a.docx", "docx", true, .done "Word document analyzed and redacted." [] [] "cleansed_files/cleansed_a.docx"⟩,
   ⟨"b.pdf", "pdf", true, .done "PDF document analyzed and redacted." [] [] "cleansed_files/cleansed_b.pdf"⟩,
   ⟨"c.docx", "docx", true, .crash "unreadable container"⟩,
   ⟨"d.csv", "csv", true, .done "CSV file analyzed and redacted." [] [] "cleansed_files/cleansed_d.csv"⟩,
   ⟨"e.png", "png", true, .done "a photo" [] [] "redacted_images/cleansed_e.png"⟩]

/-- A low-confidence OCR word containing an email address. -/
def lowConfWord : OcrWord := ⟨"a@b.cc".data, 10, 0, 0, 5, 5⟩

/-- A high-confidence OCR word containing an email address. -/
def hiConfWord : OcrWord := ⟨"a@b.cc".data, 90, 0, 0, 5, 5⟩

/-- Word-boundary test of cs at absolute position i. -/
def boundG (cs : List Char) (i : Nat) : Bool := prevWord cs i != wordAtS cs i

/-- All characters of s at indices in the half-open range a to b satisfy
the class p. -/
def rangeAll (p : Char → Bool) (s : List Char) (a b : Nat) : Prop :=
  ∀ j, a ≤ j → j < b → ∃ c, s[j]? = some c ∧ p c = true

/-- Declarative characterization of an EMAIL_PATTERN match attempt that
ends at offset e of the suffix s: some decomposition into a non-empty
local-part run, the at sign, a non-empty domain run, a literal dot and a
final-class run of length at least two, delimited by word boundaries. -/
def GoodEnd (prevW : Bool) (s : List Char) (e : Nat) : Prop :=
  ∃ l d t, 1 ≤ l ∧ 1 ≤ d ∧ 2 ≤ t ∧ e = l + 1 + d + 1 + t ∧
    boundS prevW s 0 = true ∧
    rangeAll isLocalChar s 0 l ∧
    s[l]? = some '@' ∧
    rangeAll isDomainChar s (l + 1) (l + 1 + d) ∧
    s[l + 1 + d]? = some '.' ∧
    rangeAll isTldChar s (l + 1 + d + 1) e ∧
    boundS prevW s e = true

/-- Any character a match can contain. -/
def isEmailChar (c : Char) : Bool :=
  isLocalChar c || c = '@' || isDomainChar c || c = '.' || isTldChar c

/-- No match attempt succeeds at any position of the half-open range a to
b of cs. -/
def GapsNone (cs : List Char) (a b : Nat) : Prop :=
  ∀ q, a ≤ q → q < b → emailMatchAt cs q = none

/-- The facts the scanning pass establishes about its output, scanning cs
from position pos: ranges are listed left to right, each is a match, and
no match attempt succeeds at any position in the gaps between them. -/
def ScanFacts (cs : List Char) : Nat → List (Nat × Nat) → Prop
  | pos, [] => GapsNone cs pos cs.length
  | pos, (s, e) :: rest =>
    pos ≤ s ∧ GapsNone cs pos s ∧ emailMatchAt cs s = some e ∧ ScanFacts cs e rest

/-- No match attempt succeeds at any position of out, where prevW is the
word status of the character preceding out. -/
def NoMatchAll (prevW : Bool) (out : List Char) : Prop :=
  ∀ q, matchS (prevAtS prevW out q) (out.drop q) = none

/-- Word status of the last character of A (prevW when A is empty). -/
def endW (prevW : Bool) (A : List Char) : Bool := prevAtS prevW A A.length

/-! Helper lemmas. -/

theorem runLenAux_lt (p : Char → Bool) (s : List Char) (j : Nat)
    (h : j < runLenAux p s) : ∃ c, s[j]? = some c ∧ p c = true := by
  induction s generalizing j with
  | nil => simp [runLenAux] at h
  | cons c r ih =>
    unfold runLenAux at h
    by_cases hpc : p c = true
    · rw [if_pos hpc] at h
      cases j with
      | zero => exact ⟨c, by simp, hpc⟩
      | succ j2 =>
        have := ih (j := j2) (by omega)
        simpa using this
    · rw [if_neg hpc] at h
      omega

theorem runLenAux_stop (p : Char → Bool) (s : List Char) (c : Char)
    (h : s[runLenAux p s]? = some c) : p c = false := by
  induction s with
  | nil => simp at h
  | cons c0 r ih =>
    unfold runLenAux at h
    by_cases hpc : p c0 = true
    · rw [if_pos hpc] at h
      simpa using ih (by simpa using h)
    · rw [if_neg hpc] at h
      simp at h
      rw [← h]
      simpa using hpc

theorem le_runLenAux (p : Char → Bool) (s : List Char) (n : Nat)
    (h : ∀ j, j < n → ∃ c, s[j]? = some c ∧ p c = true) : n ≤ runLenAux p s := by
  induction s generalizing n with
  | nil =>
    cases n with
    | zero => exact Nat.zero_le _
    | succ n2 =>
      obtain ⟨c, hc, _⟩ := h 0 (Nat.succ_pos _)
      simp at hc
  | cons c0 r ih =>
    cases n with
    | zero => exact Nat.zero_le _
    | succ n2 =>
      obtain ⟨c, hc, hpc⟩ := h 0 (Nat.succ_pos _)
      simp at hc
      unfold runLenAux
      rw [if_pos (hc ▸ hpc)]
      have h2 : n2 ≤ runLenAux p r := by
        refine ih n2 (fun j hj => ?_)
        have := h (j + 1) (by omega)
        simpa using this
      omega

theorem runLenAux_le (p : Char → Bool) (s : List Char) (n : Nat) (c : Char)
    (hc : s[n]? = some c) (hpc : p c = false) : runLenAux p s ≤ n := by
  by_contra hgt
  obtain ⟨c2, hc2, hpc2⟩ := runLenAux_lt p s n (by omega)
  rw [hc] at hc2
  rw [← Option.some.inj hc2] at hpc2
  rw [hpc] at hpc2
  exact Bool.noConfusion hpc2

theorem tldSearchS_sound (prevW : Bool) (s : List Char) (r : Nat) :
    ∀ u e, tldSearchS prevW s r u = some e →
      ∃ u2, 2 ≤ u2 ∧ u2 ≤ u ∧ e = r + u2 ∧ boundS prevW s (r + u2) = true := by
  intro u
  induction u with
  | zero => intro e h; simp [tldSearchS] at h
  | succ u2 ih =>
    intro e h
    unfold tldSearchS at h
    by_cases hcond : (2 ≤ u2 + 1 && boundS prevW s (r + u2 + 1)) = true
    · rw [if_pos hcond] at h
      simp only [Bool.and_eq_true, decide_eq_true_eq] at hcond
      have he : e = r + u2 + 1 := (Option.some.inj h).symm
      refine ⟨u2 + 1, hcond.1, le_refl _, by omega, ?_⟩
      have harr : r + (u2 + 1) = r + u2 + 1 := by omega
      rw [harr]
      exact hcond.2
    · rw [if_neg hcond] at h
      obtain ⟨u3, h2, h3, h4, h5⟩ := ih e h
      exact ⟨u3, h2, by omega, h4, h5⟩

theorem tldSearchS_complete (prevW : Bool) (s : List Char) (r : Nat) (t : Nat)
    (h2 : 2 ≤ t) (hb : boundS prevW s (r + t) = true) :
    ∀ u, t ≤ u → tldSearchS prevW s r u ≠ none := by
  intro u
  induction u with
  | zero => intro hle; omega
  | succ u2 ih =>
    intro hle
    unfold tldSearchS
    by_cases hcond : (2 ≤ u2 + 1 && boundS prevW s (r + u2 + 1)) = true
    · rw [if_pos hcond]
      exact Option.noConfusion
    · rw [if_neg hcond]
      by_cases ht : t = u2 + 1
      · exfalso
        refine hcond ?_
        simp only [Bool.and_eq_true, decide_eq_true_eq]
        constructor
        · omega
        · rw [Nat.add_assoc, ← ht]
          exact hb
      · exact ih (by omega)

theorem domSearchS_sound (prevW : Bool) (s : List Char) (q : Nat) :
    ∀ K e, domSearchS prevW s q K = some e →
      ∃ d, 1 ≤ d ∧ d ≤ K ∧ s[q + d]? = some '.' ∧
        ∃ u2, 2 ≤ u2 ∧ u2 ≤ runLenAux isTldChar (s.drop (q + d + 1)) ∧
          e = q + d + 1 + u2 ∧ boundS prevW s (q + d + 1 + u2) = true := by
  intro K
  induction K with
  | zero => intro e h; simp [domSearchS] at h
  | succ k ih =>
    intro e h
    unfold domSearchS at h
    by_cases hdot : s[q + k + 1]? = some '.'
    · rw [if_pos hdot] at h
      cases htld : tldSearchS prevW s (q + k + 2)
          (runLenAux isTldChar (s.drop (q + k + 2))) with
      | some e2 =>
        rw [htld] at h
        simp only at h
        obtain ⟨u2, hu2, hle, he, hbnd⟩ := tldSearchS_sound prevW s (q + k + 2) _ e2 htld
        refine ⟨k + 1, by omega, le_refl _, ?_, u2, hu2, ?_, ?_, ?_⟩
        · rw [← Nat.add_assoc]; exact hdot
        · have harr : q + (k + 1) + 1 = q + k + 2 := by omega
          rw [harr]; exact hle
        · rw [Option.some.inj h] at he
          rw [he]; omega
        · have harr : q + (k + 1) + 1 + u2 = q + k + 2 + u2 := by omega
          rw [harr]; exact hbnd
      | none =>
        rw [htld] at h
        simp only at h
        obtain ⟨d, h1, h2a, h3, rest⟩ := ih e h
        exact ⟨d, h1, by omega, h3, rest⟩
    · rw [if_neg hdot] at h
      obtain ⟨d, h1, h2a, h3, rest⟩ := ih e h
      exact ⟨d, h1, by omega, h3, rest⟩

theorem domSearchS_complete (prevW : Bool) (s : List Char) (q : Nat) (d : Nat)
    (h1 : 1 ≤ d) (hdot : s[q + d]? = some '.')
    (ht : tldSearchS prevW s (q + d + 1)
      (runLenAux isTldChar (s.drop (q + d + 1))) ≠ none) :
    ∀ K, d ≤ K → domSearchS prevW s q K ≠ none := by
  intro K
  induction K with
  | zero => intro hle; omega
  | succ k ih =>
    intro hle
    unfold domSearchS
    by_cases hd : d = k + 1
    · have hdot2 : s[q + k + 1]? = some '.' := by
        have harr : q + k + 1 = q + d := by omega
        rw [harr]; exact hdot
      rw [if_pos hdot2]
      cases htld : tldSearchS prevW s (q + k + 2)
          (runLenAux isTldChar (s.drop (q + k + 2))) with
      | some e2 => exact Option.noConfusion
      | none =>
        exfalso
        refine ht ?_
        have harr : q + d + 1 = q + k + 2 := by omega
        rw [harr]
        exact htld
    · by_cases hdot2 : s[q + k + 1]? = some '.'
      · rw [if_pos hdot2]
        cases htld : tldSearchS prevW s (q + k + 2)
            (runLenAux isTldChar (s.drop (q + k + 2))) with
        | some e2 => exact Option.noConfusion
        | none => exact ih (by omega)
      · rw [if_neg hdot2]
        exact ih (by omega)

theorem matchS_none_of_bound (prevW : Bool) (s : List Char)
    (h : boundS prevW s 0 = false) : matchS prevW s = none := by
  unfold matchS
  rw [h]
  rfl

theorem matchS_none_of_runLen (prevW : Bool) (s : List Char)
    (h : runLenAux isLocalChar s = 0) : matchS prevW s = none := by
  simp only [matchS, h]
  split
  · rfl
  · rfl

theorem matchS_none_of_probe (prevW : Bool) (s : List Char)
    (h : ¬ s[runLenAux isLocalChar s]? = some '@') : matchS prevW s = none := by
  by_cases hb : boundS prevW s 0 = true
  · by_cases hl : runLenAux isLocalChar s = 0
    · exact matchS_none_of_runLen prevW s hl
    · simp only [matchS, hb, Bool.not_true]
      rw [if_neg (by exact Bool.false_ne_true), if_neg hl, if_pos h]
  · exact matchS_none_of_bound prevW s (Bool.eq_false_iff.mpr hb)

theorem matchS_eq_dom (prevW : Bool) (s : List Char)
    (hb0 : boundS prevW s 0 = true)
    (hl0 : runLenAux isLocalChar s ≠ 0)
    (hat : s[runLenAux isLocalChar s]? = some '@') :
    matchS prevW s = domSearchS prevW s (runLenAux isLocalChar s + 1)
      (runLenAux isDomainChar (s.drop (runLenAux isLocalChar s + 1))) := by
  simp only [matchS, hb0, Bool.not_true]
  rw [if_neg (by exact Bool.false_ne_true), if_neg hl0,
    if_neg (by rw [Decidable.not_not]; exact hat)]

theorem matchS_sound (prevW : Bool) (s : List Char) (e : Nat)
    (h : matchS prevW s = some e) : GoodEnd prevW s e := by
  by_cases hb0 : boundS prevW s 0 = true
  case neg =>
    rw [matchS_none_of_bound prevW s (Bool.eq_false_iff.mpr hb0)] at h
    exact Option.noConfusion h
  by_cases hl0 : runLenAux isLocalChar s = 0
  case pos =>
    rw [matchS_none_of_runLen prevW s hl0] at h
    exact Option.noConfusion h
  by_cases hat : s[runLenAux isLocalChar s]? = some '@'
  case neg =>
    rw [matchS_none_of_probe prevW s hat] at h
    exact Option.noConfusion h
  rw [matchS_eq_dom prevW s hb0 hl0 hat] at h
  obtain ⟨d, hd1, hdK, hdot, u2, hu2, hu2le, he, hbnd⟩ :=
    domSearchS_sound prevW s (runLenAux isLocalChar s + 1) _ e h
  refine ⟨runLenAux isLocalChar s, d, u2, Nat.one_le_iff_ne_zero.mpr hl0, hd1, hu2,
    he, hb0, ?_, hat, ?_, hdot, ?_, by rw [he]; exact hbnd⟩
  · exact fun j _ hj => runLenAux_lt isLocalChar s j hj
  · intro j hj1 hj2
    obtain ⟨c, hc1, hc2⟩ := runLenAux_lt isDomainChar
      (s.drop (runLenAux isLocalChar s + 1)) (j - (runLenAux isLocalChar s + 1))
      (by omega)
    rw [List.getElem?_drop] at hc1
    refine ⟨c, ?_, hc2⟩
    rw [← hc1]
    congr 1
    omega
  · intro j hj1 hj2
    obtain ⟨c, hc1, hc2⟩ := runLenAux_lt isTldChar
      (s.drop (runLenAux isLocalChar s + 1 + d + 1))
      (j - (runLenAux isLocalChar s + 1 + d + 1)) (by omega)
    rw [List.getElem?_drop] at hc1
    refine ⟨c, ?_, hc2⟩
    rw [← hc1]
    congr 1
    omega

theorem matchS_complete (prevW : Bool) (s : List Char) (e : Nat)
    (h : GoodEnd prevW s e) : matchS prevW s ≠ none := by
  obtain ⟨l, d, t, hl1, hd1, ht2, he, hb0, hloc, hat, hdom, hdot, htld, hbe⟩ := h
  have hleq : runLenAux isLocalChar s = l := by
    refine le_antisymm ?_ ?_
    · exact runLenAux_le _ _ l '@' hat (by decide)
    · exact le_runLenAux _ _ l (fun j hj => hloc j (Nat.zero_le _) hj)
  rw [matchS_eq_dom prevW s hb0 (by omega) (by rw [hleq]; exact hat)]
  rw [hleq]
  refine domSearchS_complete prevW s (l + 1) d hd1 hdot ?_ _ ?_
  · refine tldSearchS_complete prevW s (l + 1 + d + 1) t ht2 ?_ _ ?_
    · have harr : l + 1 + d + 1 + t = e := by omega
      rw [harr]
      exact hbe
    · refine le_runLenAux _ _ t (fun j hj => ?_)
      obtain ⟨c, hc1, hc2⟩ := htld (l + 1 + d + 1 + j) (by omega) (by omega)
      refine ⟨c, ?_, hc2⟩
      rw [List.getElem?_drop]
      exact hc1
  · refine le_runLenAux _ _ d (fun j hj => ?_)
    obtain ⟨c, hc1, hc2⟩ := hdom (l + 1 + j) (by omega) (by omega)
    refine ⟨c, ?_, hc2⟩
    rw [List.getElem?_drop]
    exact hc1

theorem GoodEnd_ge6 (prevW : Bool) (s : List Char) (e : Nat)
    (h : GoodEnd prevW s e) : 6 ≤ e := by
  obtain ⟨l, d, t, hl1, hd1, ht2, he, _⟩ := h
  omega

theorem GoodEnd_char (prevW : Bool) (s : List Char) (e : Nat)
    (h : GoodEnd prevW s e) (j : Nat) (hj : j < e) :
    ∃ c, s[j]? = some c ∧ isEmailChar c = true := by
  obtain ⟨l, d, t, hl1, hd1, ht2, he, hb0, hloc, hat, hdom, hdot, htld, hbe⟩ := h
  have hcases : j < l ∨ j = l ∨ (l + 1 ≤ j ∧ j < l + 1 + d) ∨ j = l + 1 + d ∨
      (l + 1 + d + 1 ≤ j ∧ j < e) := by omega
  rcases hcases with hc | hc | hc | hc | hc
  · obtain ⟨c, h1, h2⟩ := hloc j (Nat.zero_le _) hc
    exact ⟨c, h1, by simp [isEmailChar, h2]⟩
  · exact ⟨'@', hc ▸ hat, by decide⟩
  · obtain ⟨c, h1, h2⟩ := hdom j hc.1 hc.2
    exact ⟨c, h1, by simp [isEmailChar, h2]⟩
  · exact ⟨'.', hc ▸ hdot, by decide⟩
  · obtain ⟨c, h1, h2⟩ := htld j hc.1 hc.2
    exact ⟨c, h1, by simp [isEmailChar, h2]⟩

theorem GoodEnd_le_length (prevW : Bool) (s : List Char) (e : Nat)
    (h : GoodEnd prevW s e) : e ≤ s.length := by
  have h6 := GoodEnd_ge6 prevW s e h
  obtain ⟨c, hc, _⟩ := GoodEnd_char prevW s e h (e - 1) (by omega)
  have hlt : e - 1 < s.length := by
    by_contra hge
    rw [List.getElem?_eq_none (by omega)] at hc
    exact Option.noConfusion hc
  omega

theorem wordAtS_drop (cs : List Char) (p j : Nat) :
    wordAtS (cs.drop p) j = wordAtS cs (p + j) := by
  unfold wordAtS
  rw [List.getElem?_drop]

theorem prevAtS_drop (cs : List Char) (p j : Nat) :
    prevAtS (prevWord cs p) (cs.drop p) j = prevWord cs (p + j) := by
  cases j with
  | zero => rfl
  | succ j2 =>
    show wordAtS (cs.drop p) j2 = prevWord cs (p + (j2 + 1))
    rw [wordAtS_drop]
    rfl

theorem boundS_drop (cs : List Char) (p j : Nat) :
    boundS (prevWord cs p) (cs.drop p) j = boundG cs (p + j) := by
  unfold boundS boundG
  rw [prevAtS_drop, wordAtS_drop]

theorem emailMatchAt_facts (cs : List Char) (p e : Nat)
    (h : emailMatchAt cs p = some e) :
    p + 6 ≤ e ∧ e ≤ cs.length ∧ boundG cs p = true ∧ boundG cs e = true ∧
    (∀ j, p ≤ j → j < e → ∃ c, cs[j]? = some c ∧ isEmailChar c = true) := by
  unfold emailMatchAt at h
  cases hm : matchS (prevWord cs p) (cs.drop p) with
  | none => rw [hm] at h; exact Option.noConfusion h
  | some er =>
    rw [hm] at h
    simp only [Option.map_some'] at h
    have he : e = p + er := (Option.some.inj h).symm
    have hg := matchS_sound _ _ _ hm
    have h6 := GoodEnd_ge6 _ _ _ hg
    have hlen : er ≤ (cs.drop p).length := GoodEnd_le_length _ _ _ hg
    rw [List.length_drop] at hlen
    obtain ⟨l, d, t, hl1, hd1, ht2, herr, hb0, hloc, hat, hdom, hdot, htld, hbe⟩ := hg
    refine ⟨by omega, by omega, ?_, ?_, ?_⟩
    · have hbb := boundS_drop cs p 0
      rw [Nat.add_zero] at hbb
      rw [← hbb]
      exact hb0
    · have : boundG cs (p + er) = true := by
        rw [← boundS_drop cs p er]
        exact hbe
      rw [he]
      exact this
    · intro j hj1 hj2
      obtain ⟨c, hc1, hc2⟩ := GoodEnd_char _ _ _
        ⟨l, d, t, hl1, hd1, ht2, herr, hb0, hloc, hat, hdom, hdot, htld, hbe⟩
        (j - p) (by omega)
      rw [List.getElem?_drop] at hc1
      refine ⟨c, ?_, hc2⟩
      rw [← hc1]
      congr 1
      omega

theorem getElem?_lt_length {α : Type} {l : List α} {i : Nat} {a : α}
    (h : l[i]? = some a) : i < l.length := by
  by_contra hge
  rw [List.getElem?_eq_none (by omega)] at h
  exact Option.noConfusion h

theorem mem_to_getElem? {α : Type} {l : List α} {a : α} (h : a ∈ l) :
    ∃ i : Nat, l[i]? = some a := by
  rw [List.mem_iff_getElem] at h
  obtain ⟨i, hlt, he⟩ := h
  exact ⟨i, by rw [List.getElem?_eq_getElem hlt]; exact congrArg some he⟩

theorem slice_getElem? (cs : List Char) (a b j : Nat) (hj : j < b - a) :
    (slice cs a b)[j]? = cs[a + j]? := by
  unfold slice
  rw [List.getElem?_drop, List.getElem?_take, if_pos (by omega)]

theorem slice_length (cs : List Char) (a b : Nat) (hb : b ≤ cs.length) :
    (slice cs a b).length = b - a := by
  unfold slice
  rw [List.length_drop, List.length_take, Nat.min_eq_left hb]

theorem scanFacts_mono (cs : List Char) (pos : Nat) (rs : List (Nat × Nat))
    (h : ScanFacts cs (pos + 1) rs) (h0 : emailMatchAt cs pos = none) :
    ScanFacts cs pos rs := by
  cases rs with
  | nil =>
    intro q hq1 hq2
    by_cases hq : q = pos
    · rw [hq]; exact h0
    · exact h q (by omega) hq2
  | cons r rest =>
    obtain ⟨s, e⟩ := r
    obtain ⟨h1, h2, h3, h4⟩ := h
    refine ⟨by omega, ?_, h3, h4⟩
    intro q hq1 hq2
    by_cases hq : q = pos
    · rw [hq]; exact h0
    · exact h2 q (by omega) hq2

theorem emailScan_facts (cs : List Char) :
    ∀ fuel p, cs.length < fuel + p → ScanFacts cs p (emailScan cs fuel p) := by
  intro fuel
  induction fuel with
  | zero =>
    intro p hp
    intro q hq1 hq2
    omega
  | succ fuel ih =>
    intro p hp
    unfold emailScan
    by_cases hep : cs.length ≤ p
    · rw [if_pos hep]
      intro q hq1 hq2
      omega
    · rw [if_neg hep]
      cases hm : emailMatchAt cs p with
      | some e =>
        refine ⟨le_refl p, ?_, hm, ?_⟩
        · intro q hq1 hq2; omega
        · refine ih e ?_
          have hfacts := emailMatchAt_facts cs p e hm
          omega
      | none =>
        exact scanFacts_mono cs p _ (ih (p + 1) (by omega)) hm

theorem emailRanges_facts (cs : List Char) : ScanFacts cs 0 (emailRanges cs) :=
  emailScan_facts cs (cs.length + 1) 0 (by omega)

theorem slice_count_zero_of_match (cs : List Char) (p e : Nat)
    (h : emailMatchAt cs p = some e) : (slice cs p e).count '\n' = 0 := by
  obtain ⟨h6, hlen, _, _, hchar⟩ := emailMatchAt_facts cs p e h
  rw [List.count_eq_zero]
  intro hmem
  obtain ⟨j, hj⟩ := mem_to_getElem? hmem
  have hjlt : j < (slice cs p e).length := getElem?_lt_length hj
  rw [slice_length cs p e hlen] at hjlt
  rw [slice_getElem? cs p e j hjlt] at hj
  obtain ⟨c, hc1, hc2⟩ := hchar (p + j) (by omega) (by omega)
  rw [hj] at hc1
  rw [← Option.some.inj hc1] at hc2
  exact Bool.noConfusion hc2

theorem drop_decomp (cs : List Char) (a b : Nat) (hab : a ≤ b)
    (hb : b ≤ cs.length) : cs.drop a = slice cs a b ++ cs.drop b := by
  unfold slice
  have h1 : cs = cs.take b ++ cs.drop b := (List.take_append_drop b cs).symm
  conv_lhs => rw [h1]
  rw [List.drop_append_eq_append_drop, List.length_take, Nat.min_eq_left hb,
    Nat.sub_eq_zero_of_le hab, List.drop_zero]

theorem count_emailSubAux (cs : List Char) :
    ∀ ranges pos, ScanFacts cs pos ranges → pos ≤ cs.length →
      (emailSubAux cs ranges pos).count '\n' = (cs.drop pos).count '\n' := by
  intro ranges
  induction ranges with
  | nil =>
    intro pos _ _
    rfl
  | cons r rest ih =>
    intro pos hsf hpos
    obtain ⟨s, e⟩ := r
    obtain ⟨h1, h2, h3, h4⟩ := hsf
    obtain ⟨h6, helen, _, _, _⟩ := emailMatchAt_facts cs s e h3
    have hse : s < e := by omega
    have hslen : s ≤ cs.length := by omega
    have hstep : emailSubAux cs ((s, e) :: rest) pos =
        slice cs pos s ++ "[REDACTED]".data ++ emailSubAux cs rest e := rfl
    rw [hstep]
    rw [drop_decomp cs pos s h1 hslen, drop_decomp cs s e (by omega) helen]
    rw [List.count_append, List.count_append, List.count_append, List.count_append]
    rw [ih e h4 helen]
    rw [slice_count_zero_of_match cs s e h3]
    have hred : List.count '\n' ("[REDACTED]".data) = 0 := by decide
    rw [hred]
    omega

theorem count_emailSubList (cs : List Char) :
    (emailSubList cs).count '\n' = cs.count '\n' := by
  unfold emailSubList
  have h := count_emailSubAux cs (emailRanges cs) 0 (emailRanges_facts cs)
    (Nat.zero_le _)
  rw [h, List.drop_zero]

theorem splitNl_ne_nil (l : List Char) : splitNl l ≠ [] := by
  cases l with
  | nil => simp [splitNl]
  | cons c r =>
    simp only [splitNl]
    by_cases hc : c = '\n'
    · rw [if_pos hc]; exact List.cons_ne_nil _ _
    · rw [if_neg hc]
      cases hsp : splitNl r with
      | nil => simp only [hsp]; exact List.cons_ne_nil _ _
      | cons h t => simp only [hsp]; exact List.cons_ne_nil _ _

theorem splitNl_length (l : List Char) : (splitNl l).length = l.count '\n' + 1 := by
  induction l with
  | nil => rfl
  | cons c r ih =>
    simp only [splitNl]
    by_cases hc : c = '\n'
    · rw [if_pos hc, hc]
      simp only [List.length_cons, List.count_cons]
      rw [ih]
      simp
    · rw [if_neg hc]
      cases hsp : splitNl r with
      | nil => exact absurd hsp (splitNl_ne_nil r)
      | cons h t =>
        simp only [hsp]
        rw [hsp] at ih
        simp only [List.length_cons] at ih ⊢
        rw [List.count_cons]
        simp only [beq_iff_eq, if_neg hc]
        omega

theorem count_joinNl (blocks : List (List Char)) (hne : blocks ≠ [])
    (hnl : ∀ b ∈ blocks, '\n' ∉ b) :
    (joinNl blocks).count '\n' + 1 = blocks.length := by
  induction blocks with
  | nil => exact absurd rfl hne
  | cons b bs ih =>
    have hb : '\n' ∉ b := hnl b (List.mem_cons_self _ _)
    have hcb : b.count '\n' = 0 := List.count_eq_zero.mpr hb
    cases bs with
    | nil =>
      show (joinNl [b]).count '\n' + 1 = 1
      have : joinNl [b] = b := rfl
      rw [this, hcb]
    | cons b2 bs2 =>
      have hstep : joinNl (b :: b2 :: bs2) = b ++ '\n' :: joinNl (b2 :: bs2) := rfl
      rw [hstep, List.count_append, List.count_cons, hcb]
      have ih2 := ih (List.cons_ne_nil _ _)
        (fun x hx => hnl x (List.mem_cons_of_mem b hx))
      simp only [List.length_cons] at ih2 ⊢
      simp only [beq_self_eq_true, if_true]
      omega

theorem prevAtS_false_eq_prevWord (s : List Char) (q : Nat) :
    prevAtS false s q = prevWord s q := by
  cases q with
  | zero => rfl
  | succ j => rfl

theorem wordAtS_append_lt (A B : List Char) (j : Nat) (h : j < A.length) :
    wordAtS (A ++ B) j = wordAtS A j := by
  unfold wordAtS
  rw [List.getElem?_append, if_pos h]

theorem wordAtS_append_ge (A B : List Char) (j : Nat) (h : A.length ≤ j) :
    wordAtS (A ++ B) j = wordAtS B (j - A.length) := by
  unfold wordAtS
  rw [List.getElem?_append, if_neg (by omega)]

theorem prevAtS_append_le (prevW : Bool) (A B : List Char) (q : Nat)
    (h : q ≤ A.length) : prevAtS prevW (A ++ B) q = prevAtS prevW A q := by
  cases q with
  | zero => rfl
  | succ j =>
    show wordAtS (A ++ B) j = wordAtS A j
    exact wordAtS_append_lt A B j (by omega)

theorem prevAtS_append_ge (prevW : Bool) (A B : List Char) (q : Nat)
    (h : A.length ≤ q) :
    prevAtS prevW (A ++ B) q = prevAtS (endW prevW A) B (q - A.length) := by
  rcases Nat.eq_or_lt_of_le h with heq | hlt
  · rw [← heq, Nat.sub_self]
    show prevAtS prevW (A ++ B) A.length = endW prevW A
    unfold endW
    exact prevAtS_append_le prevW A B A.length (le_refl _)
  · obtain ⟨j, hj⟩ : ∃ j, q = j + 1 := ⟨q - 1, by omega⟩
    subst hj
    show wordAtS (A ++ B) j = prevAtS (endW prevW A) B (j + 1 - A.length)
    rw [wordAtS_append_ge A B j (by omega)]
    have harr : j + 1 - A.length = (j - A.length) + 1 := by omega
    rw [harr]
    rfl

theorem drop_append_le {α : Type} (A B : List α) (q : Nat) (h : q ≤ A.length) :
    (A ++ B).drop q = A.drop q ++ B := by
  rw [List.drop_append_eq_append_drop, Nat.sub_eq_zero_of_le h, List.drop_zero]

theorem drop_append_ge {α : Type} (A B : List α) (q : Nat) (h : A.length ≤ q) :
    (A ++ B).drop q = B.drop (q - A.length) := by
  rw [List.drop_append_eq_append_drop, List.drop_of_length_le h, List.nil_append]

theorem noMatchAll_append (prevW : Bool) (A B : List Char)
    (hA : ∀ q, q < A.length → matchS (prevAtS prevW A q) (A.drop q ++ B) = none)
    (hB : NoMatchAll (endW prevW A) B) :
    NoMatchAll prevW (A ++ B) := by
  intro q
  rcases lt_or_ge q A.length with hq | hq
  · rw [prevAtS_append_le prevW A B q (le_of_lt hq), drop_append_le A B q (le_of_lt hq)]
    exact hA q hq
  · rw [prevAtS_append_ge prevW A B q hq, drop_append_ge A B q hq]
    exact hB (q - A.length)

theorem runLenAux_append_stop (p : Char → Bool) (A : List Char) (b : Char)
    (X : List Char) (hA : ∀ c ∈ A, p c = true) (hb : p b = false) :
    runLenAux p (A ++ b :: X) = A.length := by
  induction A with
  | nil =>
    rw [List.nil_append]
    unfold runLenAux
    rw [if_neg (by rw [hb]; exact Bool.false_ne_true)]
    rfl
  | cons c r ih =>
    rw [List.cons_append]
    unfold runLenAux
    rw [if_pos (hA c (List.mem_cons_self _ _))]
    rw [ih (fun x hx => hA x (List.mem_cons_of_mem _ hx))]
    rfl

theorem matchS_none_head_not_local (prevW : Bool) (c : Char) (r : List Char)
    (h : isLocalChar c = false) : matchS prevW (c :: r) = none := by
  refine matchS_none_of_runLen prevW (c :: r) ?_
  unfold runLenAux
  rw [if_neg (by rw [h]; exact Bool.false_ne_true)]

theorem matchS_none_letters_rb (prevW : Bool) (A X : List Char)
    (hA : ∀ c ∈ A, isLocalChar c = true) :
    matchS prevW (A ++ ']' :: X) = none := by
  refine matchS_none_of_probe prevW (A ++ ']' :: X) ?_
  rw [runLenAux_append_stop isLocalChar A ']' X hA (by decide)]
  rw [List.getElem?_append_right (le_refl _), Nat.sub_self]
  intro hx
  simp at hx

theorem redacted_no_match (prevW : Bool) (X : List Char)
    (hX : NoMatchAll false X) :
    NoMatchAll prevW ("[REDACTED]".data ++ X) := by
  have hred : "[REDACTED]".data =
      '[' :: 'R' :: 'E' :: 'D' :: 'A' :: 'C' :: 'T' :: 'E' :: 'D' :: ']' :: [] := rfl
  refine noMatchAll_append prevW _ X (fun q hq => ?_) ?_
  · rw [hred] at hq ⊢
    simp only [List.length_cons, List.length_nil] at hq
    interval_cases q
    · exact matchS_none_head_not_local _ '[' _ (by decide)
    · exact matchS_none_letters_rb _ ['R', 'E', 'D', 'A', 'C', 'T', 'E', 'D'] X
        (by decide)
    · exact matchS_none_letters_rb _ ['E', 'D', 'A', 'C', 'T', 'E', 'D'] X (by decide)
    · exact matchS_none_letters_rb _ ['D', 'A', 'C', 'T', 'E', 'D'] X (by decide)
    · exact matchS_none_letters_rb _ ['A', 'C', 'T', 'E', 'D'] X (by decide)
    · exact matchS_none_letters_rb _ ['C', 'T', 'E', 'D'] X (by decide)
    · exact matchS_none_letters_rb _ ['T', 'E', 'D'] X (by decide)
    · exact matchS_none_letters_rb _ ['E', 'D'] X (by decide)
    · exact matchS_none_letters_rb _ ['D'] X (by decide)
    · exact matchS_none_head_not_local _ ']' _ (by decide)
  · have hend : endW prevW ("[REDACTED]".data) = false := rfl
    rw [hend]
    exact hX

theorem wordAtS_congr {s1 s2 : List Char} {j : Nat} (h : s1[j]? = s2[j]?) :
    wordAtS s1 j = wordAtS s2 j := by
  unfold wordAtS
  rw [h]

theorem boundS_congr (prevW : Bool) (s1 s2 : List Char) (i : Nat)
    (h1 : ∀ j, j ≤ i → s1[j]? = s2[j]?) :
    boundS prevW s1 i = boundS prevW s2 i := by
  unfold boundS
  cases i with
  | zero =>
    show (prevW != wordAtS s1 0) = (prevW != wordAtS s2 0)
    rw [wordAtS_congr (h1 0 (le_refl _))]
  | succ j =>
    show (wordAtS s1 j != wordAtS s1 (j + 1)) = (wordAtS s2 j != wordAtS s2 (j + 1))
    rw [wordAtS_congr (h1 j (by omega)), wordAtS_congr (h1 (j + 1) (le_refl _))]

theorem GoodEnd_congr (prevW : Bool) (s1 s2 : List Char) (e : Nat)
    (hag : ∀ j, j ≤ e → s1[j]? = s2[j]?) (h : GoodEnd prevW s1 e) :
    GoodEnd prevW s2 e := by
  obtain ⟨l, d, t, hl1, hd1, ht2, he, hb0, hloc, hat, hdom, hdot, htld, hbe⟩ := h
  refine ⟨l, d, t, hl1, hd1, ht2, he, ?_, ?_, ?_, ?_, ?_, ?_, ?_⟩
  · rw [← boundS_congr prevW s1 s2 0 (fun j hj => hag j (by omega))]
    exact hb0
  · intro j hj1 hj2
    obtain ⟨c, hc1, hc2⟩ := hloc j hj1 hj2
    exact ⟨c, (hag j (by omega)) ▸ hc1, hc2⟩
  · rw [← hag l (by omega)]
    exact hat
  · intro j hj1 hj2
    obtain ⟨c, hc1, hc2⟩ := hdom j hj1 hj2
    exact ⟨c, (hag j (by omega)) ▸ hc1, hc2⟩
  · rw [← hag (l + 1 + d) (by omega)]
    exact hdot
  · intro j hj1 hj2
    obtain ⟨c, hc1, hc2⟩ := htld j hj1 hj2
    exact ⟨c, (hag j (by omega)) ▸ hc1, hc2⟩
  · rw [← boundS_congr prevW s1 s2 e hag]
    exact hbe

theorem gap_transfer (prevW : Bool) (g O X : List Char) (c0 : Char)
    (hO : O[0]? = some c0)
    (hbn : ∀ cl, g[g.length - 1]? = some cl → isWordChar cl ≠ isWordChar c0)
    (hnone : matchS prevW (g ++ O) = none) :
    matchS prevW (g ++ '[' :: X) = none := by
  by_contra hne
  obtain ⟨e, he⟩ := Option.ne_none_iff_exists'.mp hne
  have hg := matchS_sound prevW (g ++ '[' :: X) e he
  have h6 := GoodEnd_ge6 _ _ _ hg
  have hele : e ≤ g.length := by
    by_contra hgt
    obtain ⟨c, hc1, hc2⟩ := GoodEnd_char _ _ _ hg g.length (by omega)
    rw [List.getElem?_append_right (le_refl _), Nat.sub_self] at hc1
    have hcb : c = '[' := by simpa using hc1.symm
    rw [hcb] at hc2
    exact absurd hc2 (by decide)
  rcases Nat.lt_or_ge e g.length with hlt | hge
  · have hg2 : GoodEnd prevW (g ++ O) e := by
      refine GoodEnd_congr prevW (g ++ '[' :: X) (g ++ O) e (fun j hj => ?_) hg
      rw [List.getElem?_append, if_pos (show j < g.length by omega),
        List.getElem?_append, if_pos (show j < g.length by omega)]
    exact matchS_complete prevW (g ++ O) e hg2 hnone
  · have heq : e = g.length := by omega
    have hag : ∀ j, j < e → (g ++ '[' :: X)[j]? = (g ++ O)[j]? := by
      intro j hj
      rw [List.getElem?_append, if_pos (show j < g.length by omega),
        List.getElem?_append, if_pos (show j < g.length by omega)]
    obtain ⟨j0, hj0⟩ : ∃ j0, e = j0 + 1 := ⟨e - 1, by omega⟩
    have hwe : wordAtS (g ++ '[' :: X) e = false := by
      unfold wordAtS
      rw [heq, List.getElem?_append_right (le_refl _), Nat.sub_self,
        List.getElem?_cons_zero]
      rfl
    obtain ⟨l, d, t, hl1, hd1, ht2, hee, hb0, hloc, hat, hdom, hdot, htld, hbe⟩ := hg
    have hprev : wordAtS (g ++ '[' :: X) j0 = true := by
      rw [hj0] at hbe hwe
      unfold boundS at hbe
      have hpa : prevAtS prevW (g ++ '[' :: X) (j0 + 1) = wordAtS (g ++ '[' :: X) j0 := rfl
      rw [hpa, hwe] at hbe
      simpa using hbe
    have hprevO : wordAtS (g ++ O) j0 = true := by
      rw [← wordAtS_congr (hag j0 (by omega))]
      exact hprev
    obtain ⟨cl, hcl1, hcl2⟩ : ∃ cl, g[j0]? = some cl ∧ isWordChar cl = true := by
      unfold wordAtS at hprev
      cases hgj : (g ++ '[' :: X)[j0]? with
      | none => rw [hgj] at hprev; exact Bool.noConfusion hprev
      | some c =>
        rw [hgj] at hprev
        refine ⟨c, ?_, hprev⟩
        rw [← hgj, List.getElem?_append, if_pos (show j0 < g.length by omega)]
    have hc0w : isWordChar c0 = false := by
      have := hbn cl (by rw [show g.length - 1 = j0 by omega]; exact hcl1)
      cases hc0 : isWordChar c0
      · rfl
      · rw [hcl2, hc0] at this
        exact absurd rfl this
    have hweO : wordAtS (g ++ O) e = false := by
      unfold wordAtS
      rw [heq, List.getElem?_append_right (le_refl _), Nat.sub_self, hO]
      exact hc0w
    have hbeO : boundS prevW (g ++ O) e = true := by
      rw [hj0]
      unfold boundS
      have hpa : prevAtS prevW (g ++ O) (j0 + 1) = wordAtS (g ++ O) j0 := rfl
      rw [hpa, hprevO, ← hj0, hweO]
      rfl
    have hg2 : GoodEnd prevW (g ++ O) e := by
      refine ⟨l, d, t, hl1, hd1, ht2, hee, ?_, ?_, ?_, ?_, ?_, ?_, hbeO⟩
      · rw [← boundS_congr prevW (g ++ '[' :: X) (g ++ O) 0
          (fun j hj => hag j (by omega))]
        exact hb0
      · intro j hj1 hj2
        obtain ⟨c, hc1, hc2⟩ := hloc j hj1 hj2
        exact ⟨c, (hag j (by omega)) ▸ hc1, hc2⟩
      · rw [← hag l (by omega)]
        exact hat
      · intro j hj1 hj2
        obtain ⟨c, hc1, hc2⟩ := hdom j hj1 hj2
        exact ⟨c, (hag j (by omega)) ▸ hc1, hc2⟩
      · rw [← hag (l + 1 + d) (by omega)]
        exact hdot
      · intro j hj1 hj2
        obtain ⟨c, hc1, hc2⟩ := htld j hj1 hj2
        exact ⟨c, (hag j (by omega)) ▸ hc1, hc2⟩
    exact matchS_complete prevW (g ++ O) e hg2 hnone

theorem matchS_none_of_head_word_false (prevW : Bool) (s : List Char)
    (hp : prevW = false) (hw : wordAtS s 0 = false) : matchS prevW s = none := by
  refine matchS_none_of_bound prevW s ?_
  unfold boundS
  have hpa : prevAtS prevW s 0 = prevW := rfl
  rw [hpa, hp, hw]
  rfl

theorem matchAt_to_matchS_none (cs : List Char) (i : Nat)
    (h : emailMatchAt cs i = none) :
    matchS (prevWord cs i) (cs.drop i) = none := by
  unfold emailMatchAt at h
  exact Option.map_eq_none'.mp h

theorem wordAtS_slice (cs : List Char) (a b j : Nat) (hj : j < b - a) :
    wordAtS (slice cs a b) j = wordAtS cs (a + j) := by
  unfold wordAtS
  rw [slice_getElem? cs a b j hj]

theorem matchS_drop_none (cs : List Char) (i : Nat) (hGaps : GapsNone cs i cs.length) :
    matchS (prevWord cs i) (cs.drop i) = none := by
  by_cases hlt : i < cs.length
  · exact matchAt_to_matchS_none cs i (hGaps i (le_refl _) hlt)
  · rw [List.drop_of_length_le (by omega)]
    exact matchS_none_of_runLen _ [] rfl

theorem noMatchAll_drop (cs : List Char) (pos : Nat) (prevW : Bool)
    (hGaps : GapsNone cs pos cs.length)
    (hprev : prevW = prevWord cs pos ∨ (prevW = false ∧ boundG cs pos = true)) :
    NoMatchAll prevW (cs.drop pos) := by
  intro q
  rw [List.drop_drop]
  cases q with
  | succ j =>
    have hpa : prevAtS prevW (cs.drop pos) (j + 1) = prevWord cs (pos + (j + 1)) := by
      show wordAtS (cs.drop pos) j = prevWord cs (pos + (j + 1))
      rw [wordAtS_drop]
      rfl
    rw [hpa]
    refine matchS_drop_none cs (pos + (j + 1)) ?_
    intro q2 hq1 hq2
    exact hGaps q2 (by omega) hq2
  | zero =>
    show matchS prevW (cs.drop pos) = none
    rcases hprev with hp | ⟨hp, hbnd⟩
    · rw [hp]
      exact matchS_drop_none cs pos hGaps
    · cases hw : wordAtS cs pos with
      | false =>
        refine matchS_none_of_bound prevW (cs.drop pos) ?_
        unfold boundS
        have hpa : prevAtS prevW (cs.drop pos) 0 = prevW := rfl
        rw [hpa, hp]
        have hw0 : wordAtS (cs.drop pos) 0 = wordAtS cs pos := by
          rw [wordAtS_drop, Nat.add_zero]
        rw [hw0, hw]
        rfl
      | true =>
        have hpw : prevWord cs pos = false := by
          unfold boundG at hbnd
          rw [hw] at hbnd
          cases hpw2 : prevWord cs pos
          · rfl
          · rw [hpw2] at hbnd
            exact Bool.noConfusion hbnd
        rw [hp, ← hpw]
        exact matchS_drop_none cs pos hGaps

theorem build_no_match (cs : List Char) :
    ∀ (ranges : List (Nat × Nat)) (pos : Nat) (prevW : Bool),
      ScanFacts cs pos ranges → pos ≤ cs.length →
      (prevW = prevWord cs pos ∨ (prevW = false ∧ boundG cs pos = true)) →
      NoMatchAll prevW (emailSubAux cs ranges pos) := by
  intro ranges
  induction ranges with
  | nil =>
    intro pos prevW hsf hpos hprev
    exact noMatchAll_drop cs pos prevW hsf hprev
  | cons r rest ih =>
    intro pos prevW hsf hpos hprev
    obtain ⟨s, e⟩ := r
    obtain ⟨h1, h2, h3, h4⟩ := hsf
    obtain ⟨h6, helen, hbs, hbe, hchar⟩ := emailMatchAt_facts cs s e h3
    have hslen : s ≤ cs.length := by omega
    have hstep : emailSubAux cs ((s, e) :: rest) pos =
        slice cs pos s ++ ("[REDACTED]".data ++ emailSubAux cs rest e) := by
      rw [← List.append_assoc]
      rfl
    rw [hstep]
    refine noMatchAll_append prevW _ _ ?_
      (redacted_no_match _ _ (ih e false h4 helen (Or.inr ⟨rfl, hbe⟩)))
    intro q hq
    rw [slice_length cs pos s hslen] at hq
    have hgapdrop : (slice cs pos s).drop q = slice cs (pos + q) s := by
      unfold slice
      rw [List.drop_drop]
    rw [hgapdrop]
    -- the head character after the gap in the original string
    obtain ⟨c0, hc0⟩ : ∃ c0, cs[s]? = some c0 := by
      rw [List.getElem?_eq_getElem (show s < cs.length by omega)]
      exact ⟨_, rfl⟩
    have hO : (cs.drop s)[0]? = some c0 := by
      rw [List.getElem?_drop, Nat.add_zero]
      exact hc0
    -- the boundary fact before the match start
    obtain ⟨k, hk⟩ : ∃ k, s = k + 1 := ⟨s - 1, by omega⟩
    have hbn : ∀ cl, (slice cs (pos + q) s)[(slice cs (pos + q) s).length - 1]? =
        some cl → isWordChar cl ≠ isWordChar c0 := by
      intro cl hcl
      have hgl : (slice cs (pos + q) s).length = s - (pos + q) :=
        slice_length cs (pos + q) s hslen
      rw [hgl, slice_getElem? cs (pos + q) s _ (by omega)] at hcl
      have hidx : pos + q + (s - (pos + q) - 1) = k := by omega
      rw [hidx] at hcl
      have hword1 : wordAtS cs k = isWordChar cl := by
        unfold wordAtS
        rw [hcl]
      have hword2 : wordAtS cs s = isWordChar c0 := by
        unfold wordAtS
        rw [hc0]
      have hbg : (prevWord cs s != wordAtS cs s) = true := hbs
      rw [hk] at hbg
      have hpw : prevWord cs (k + 1) = wordAtS cs k := rfl
      rw [hpw, ← hk, hword1, hword2] at hbg
      exact bne_iff_ne.mp hbg
    -- the original-string suffix has no match at this gap position
    have hnone0 : matchS (prevWord cs (pos + q)) (cs.drop (pos + q)) = none := by
      refine matchAt_to_matchS_none cs (pos + q) (h2 (pos + q) (by omega) (by omega))
    have hdc : cs.drop (pos + q) = slice cs (pos + q) s ++ cs.drop s :=
      drop_decomp cs (pos + q) s (by omega) hslen
    cases q with
    | succ j =>
      have hpa : prevAtS prevW (slice cs pos s) (j + 1) = prevWord cs (pos + (j + 1)) := by
        show wordAtS (slice cs pos s) j = prevWord cs (pos + (j + 1))
        rw [wordAtS_slice cs pos s j (by omega)]
        rfl
      rw [hpa]
      refine gap_transfer _ _ (cs.drop s) _ c0 hO hbn ?_
      rw [← hdc]
      exact hnone0
    | zero =>
      have hpa : prevAtS prevW (slice cs pos s) 0 = prevW := rfl
      rw [hpa]
      rcases hprev with hp | ⟨hp, hbnd⟩
      · rw [hp]
        refine gap_transfer _ _ (cs.drop s) _ c0 hO hbn ?_
        rw [← hdc]
        exact hnone0
      · cases hw : wordAtS cs pos with
        | false =>
          refine matchS_none_of_head_word_false prevW _ hp ?_
          rw [wordAtS_append_lt _ _ 0
            (by rw [slice_length cs (pos + 0) s hslen]; omega)]
          rw [wordAtS_slice cs (pos + 0) s 0 (by omega)]
          simp only [Nat.add_zero]
          exact hw
        | true =>
          have hpw : prevWord cs pos = false := by
            unfold boundG at hbnd
            rw [hw] at hbnd
            cases hpw2 : prevWord cs pos
            · rfl
            · rw [hpw2] at hbnd
              exact Bool.noConfusion hbnd
          rw [hp, ← hpw]
          refine gap_transfer _ _ (cs.drop s) _ c0 hO hbn ?_
          rw [← hdc]
          exact hnone0

theorem prevAtS_false_prevWord (s : List Char) (q : Nat) :
    prevAtS false s q = prevWord s q := by
  cases q with
  | zero => rfl
  | succ j => rfl

theorem emailMatchAt_subList (cs : List Char) (q : Nat) :
    emailMatchAt (emailSubList cs) q = none := by
  have hall := build_no_match cs (emailRanges cs) 0 false (emailRanges_facts cs)
    (Nat.zero_le _) (Or.inl rfl)
  have h := hall q
  rw [prevAtS_false_prevWord] at h
  unfold emailMatchAt
  rw [show emailSubList cs = emailSubAux cs (emailRanges cs) 0 from rfl]
  rw [h]
  rfl

theorem emailScan_none (s : List Char) (h : ∀ q, emailMatchAt s q = none) :
    ∀ fuel p, emailScan s fuel p = [] := by
  intro fuel
  induction fuel with
  | zero => intro p; rfl
  | succ fuel ih =>
    intro p
    unfold emailScan
    by_cases hp : s.length ≤ p
    · rw [if_pos hp]
    · rw [if_neg hp, h p]
      exact ih (p + 1)

/-- The substituted text contains no further match of EMAIL_PATTERN: the
placeholder brackets block every run, no new match can form inside a gap
(the scanner already rejected those positions, and the word boundaries at
the seams transfer), so re-running the pattern finds nothing. -/
theorem emailRanges_emailSubList (cs : List Char) :
    emailRanges (emailSubList cs) = [] := by
  unfold emailRanges
  exact emailScan_none (emailSubList cs) (emailMatchAt_subList cs) _ 0

theorem applyEnt_phone (acc : List Char × Counts) (ent : Entity) :
    ((applyEnt acc ent).2).phone = acc.2.phone := by
  unfold applyEnt
  cases ent.startPos <;> cases ent.endPos <;> try rfl
  dsimp only
  split
  · unfold bumpCounts
    split
    · rfl
    · split <;> rfl
  · rfl

theorem foldl_applyEnt_phone (l : List Entity) (acc : List Char × Counts) :
    ((l.foldl applyEnt acc).2).phone = acc.2.phone := by
  induction l generalizing acc with
  | nil => rfl
  | cons e l ih => rw [List.foldl_cons, ih, applyEnt_phone]

theorem applyEntities_phone (es : List Entity) (cs : List Char) :
    ((applyEntities es cs).2).phone = 0 := by
  unfold applyEntities
  rw [foldl_applyEnt_phone]
  rfl

theorem main_parallel_all_present (files : List WFile)
    (hp : ∀ f ∈ files, f.present = true) :
    main_parallel files = files.map workerRec := by
  induction files with
  | nil => rfl
  | cons f fs ih =>
    have hf : f.present = true := hp f (List.mem_cons_self f fs)
    have hfs : ∀ x ∈ fs, x.present = true := fun x hx => hp x (List.mem_cons_of_mem f hx)
    have hw : process_single_file_worker f = some (workerRec f) := by
      unfold process_single_file_worker workerRec
      rw [hf]
      cases f.outcome <;> rfl
    unfold main_parallel at *
    rw [List.filterMap_cons, List.map_cons, hw, ih hfs]

theorem applyEntities_nil (cs : List Char) : applyEntities [] cs = (cs, zeroCounts) := rfl

theorem applyEntities_cons (e : Entity) (es : List Entity) (cs : List Char) :
    applyEntities (e :: es) cs = applyEnt (applyEntities es cs) e := by
  unfold applyEntities
  rw [List.reverse_cons, List.foldl_append]
  rfl

theorem expectedRedact_nil (cs : List Char) : expectedRedact cs [] = cs := by
  simp only [expectedRedact]

theorem expectedRedact_cons (cs : List Char) (s e : Nat) (rest : List (Nat × Nat)) :
    expectedRedact cs ((s, e) :: rest) =
      cs.take s ++ "[REDACTED]".data ++
        expectedRedact (cs.drop e) (rest.map (fun p => (p.1 - e, p.2 - e))) := by
  simp only [expectedRedact]

theorem spansOk_cons {len s e : Nat} {rest : List (Nat × Nat)}
    (h : spansOk len ((s, e) :: rest) = true) :
    s < e ∧ e ≤ len ∧ (∀ p ∈ rest, e ≤ p.1) ∧ spansOk len rest = true := by
  unfold spansOk at h
  simp only [Bool.and_eq_true, decide_eq_true_eq, List.all_eq_true] at h
  exact ⟨h.1.1.1, h.1.1.2, h.1.2, h.2⟩

/-- Splitting the expected redaction at a position m at or before every
span: the first m characters pass through unchanged and the rest is the
expected redaction of the tail with shifted spans. -/
theorem expectedRedact_decomp (cs : List Char) (spans : List (Nat × Nat)) (m : Nat)
    (hm : ∀ p ∈ spans, m ≤ p.1) (hok : spansOk cs.length spans = true) :
    expectedRedact cs spans =
      cs.take m ++ expectedRedact (cs.drop m) (spans.map (fun p => (p.1 - m, p.2 - m))) := by
  cases spans with
  | nil =>
    rw [expectedRedact_nil, List.map_nil, expectedRedact_nil, List.take_append_drop]
  | cons hd rest =>
    obtain ⟨s, e⟩ := hd
    obtain ⟨hse, helen, hrest, hokr⟩ := spansOk_cons hok
    have hms : m ≤ s := hm (s, e) (List.mem_cons_self _ _)
    have hme : m ≤ e := le_of_lt (lt_of_le_of_lt hms hse)
    rw [List.map_cons, expectedRedact_cons, expectedRedact_cons]
    have h1 : (cs.drop m).take (s - m) = (cs.take s).drop m := by
      rw [List.take_drop, Nat.add_sub_cancel' hms]
    have h2 : (cs.drop m).drop (e - m) = cs.drop e := by
      rw [List.drop_drop]
      have h2a : m + (e - m) = e := by omega
      rw [h2a]
    have h3 : (rest.map (fun p => (p.1 - m, p.2 - m))).map
        (fun p => (p.1 - (e - m), p.2 - (e - m))) =
        rest.map (fun p => (p.1 - e, p.2 - e)) := by
      rw [List.map_map]
      refine List.map_congr_left (fun p hp => ?_)
      have h4 : e ≤ p.1 := hrest p hp
      simp only [Function.comp_apply]
      refine Prod.ext ?_ ?_ <;> simp only <;> omega
    rw [h1, h2, h3]
    have h5 : cs.take m = (cs.take s).take m := by
      rw [List.take_take, Nat.min_eq_left hms]
    rw [h5, ← List.append_assoc, ← List.append_assoc, List.take_append_drop]

/-- The entity loop on entities of one qualifying group with valid
ascending non-overlapping spans produces exactly the region-by-region
expected redaction. -/
theorem applyEntities_sorted (spans : List (Nat × Nat)) (cs : List Char) (g : String)
    (hg : entGroupQualifies g = true) (hok : spansOk cs.length spans = true) :
    (applyEntities (mkEntities spans g) cs).1 = expectedRedact cs spans := by
  induction spans with
  | nil => rw [expectedRedact_nil]; rfl
  | cons hd rest ih =>
    obtain ⟨s, e⟩ := hd
    obtain ⟨hse, helen, hrest, hokr⟩ := spansOk_cons hok
    have hstep : mkEntities ((s, e) :: rest) g =
        (⟨some s, some e, g⟩ : Entity) :: mkEntities rest g := rfl
    rw [hstep, applyEntities_cons]
    have hprev : (applyEntities (mkEntities rest g) cs).1 = expectedRedact cs rest :=
      ih hokr
    unfold applyEnt
    simp only
    rw [if_pos ⟨hg, hse⟩]
    simp only
    rw [hprev, expectedRedact_decomp cs rest e hrest hokr]
    unfold spliceRed
    have hlen : (cs.take e).length = e := by
      rw [List.length_take, Nat.min_eq_left helen]
    rw [expectedRedact_cons]
    rw [List.take_append_eq_append_take, List.drop_append_eq_append_drop, hlen]
    rw [Nat.sub_eq_zero_of_le (le_of_lt hse), List.take_zero, List.append_nil,
      List.take_take, Nat.min_eq_left (le_of_lt hse), Nat.sub_self, List.drop_zero,
      List.drop_of_length_le (le_of_eq hlen)]
    rw [List.nil_append]

/-- C1: with valid, ascending, non-overlapping entity spans of a
qualifying group, the right-to-left replacement loop replaces exactly each
span's region with the placeholder and keeps everything outside the spans;
in particular the text before any position at or before every remaining
span start is never invalidated by the replacements already performed. -/
theorem C1_descending_replacement (cs : List Char) (spans : List (Nat × Nat)) (g : String)
    (hg : entGroupQualifies g = true) (hok : spansOk cs.length spans = true) :
    (applyEntities (mkEntities spans g) cs).1 = expectedRedact cs spans ∧
    ∀ m, (∀ p ∈ spans, m ≤ p.1) →
      ((applyEntities (mkEntities spans g) cs).1).take m = cs.take m := by
  have hmain := applyEntities_sorted spans cs g hg hok
  refine ⟨hmain, fun m hm => ?_⟩
  rw [hmain]
  cases spans with
  | nil => rw [expectedRedact_nil]
  | cons hd rest =>
    obtain ⟨s, e⟩ := hd
    obtain ⟨hse, helen, hrest, hokr⟩ := spansOk_cons hok
    have hms : m ≤ s := hm (s, e) (List.mem_cons_self _ _)
    have hmlen : m ≤ cs.length := le_trans hms (le_trans (le_of_lt hse) helen)
    rw [expectedRedact_cons, List.append_assoc, List.take_append_eq_append_take]
    have hlen2 : m ≤ (cs.take s).length := by
      rw [List.length_take]
      exact le_min hms hmlen
    rw [Nat.sub_eq_zero_of_le hlen2, List.take_zero, List.append_nil,
      List.take_take, Nat.min_eq_left hms]

/-- Witness for C1 at a concrete text and span list. -/
theorem C1_descending_replacement_witness :
    spansOk ("abcdefgh".data).length [(1, 3), (5, 6)] = true ∧
    (applyEntities (mkEntities [(1, 3), (5, 6)] "PER") "abcdefgh".data).1 =
      expectedRedact "abcdefgh".data [(1, 3), (5, 6)] ∧
    ((applyEntities (mkEntities [(1, 3), (5, 6)] "PER") "abcdefgh".data).1).take 1 =
      "abcdefgh".data.take 1 := by
  have h := C1_descending_replacement "abcdefgh".data [(1, 3), (5, 6)] "PER"
    (by decide) (by decide)
  exact ⟨by decide, h.1, h.2 1 (by decide)⟩

theorem spansOk_all (len : Nat) (spans : List (Nat × Nat))
    (hok : spansOk len spans = true) : ∀ p ∈ spans, p.1 < p.2 ∧ p.2 ≤ len := by
  induction spans with
  | nil => intro p hp; simp at hp
  | cons hd rest ih =>
    obtain ⟨s, t⟩ := hd
    obtain ⟨h1, h2, h3, h4⟩ := spansOk_cons hok
    intro p hp
    rcases List.mem_cons.mp hp with h | h
    · rw [h]; exact ⟨h1, h2⟩
    · exact ih h4 p h

theorem spansOk_shift (len e : Nat) (spans : List (Nat × Nat))
    (hok : spansOk len spans = true) (hge : ∀ p ∈ spans, e ≤ p.1) (hlen : e ≤ len) :
    spansOk (len - e) (spans.map (fun p => (p.1 - e, p.2 - e))) = true := by
  induction spans with
  | nil => rfl
  | cons hd rest ih =>
    obtain ⟨s, t⟩ := hd
    obtain ⟨h1, h2, h3, h4⟩ := spansOk_cons hok
    have hse : e ≤ s := hge (s, t) (List.mem_cons_self _ _)
    have hrest := ih h4 (fun p hp => hge p (List.mem_cons_of_mem _ hp))
    rw [List.map_cons]
    unfold spansOk
    simp only [Bool.and_eq_true, decide_eq_true_eq, List.all_eq_true]
    refine ⟨⟨⟨by omega, by omega⟩, ?_⟩, hrest⟩
    intro p hp
    obtain ⟨p0, hp0, hpe⟩ := List.mem_map.mp hp
    have h5 := h3 p0 hp0
    have h6 := hge p0 (List.mem_cons_of_mem _ hp0)
    rw [← hpe]
    simp only [decide_eq_true_eq]
    omega

theorem count_expectedRedact_aux :
    ∀ (n : Nat) (cs : List Char) (spans : List (Nat × Nat)),
      spans.length ≤ n → spansOk cs.length spans = true →
      (∀ p ∈ spans, (slice cs p.1 p.2).count '\n' = 0) →
      (expectedRedact cs spans).count '\n' = cs.count '\n' := by
  intro n
  induction n with
  | zero =>
    intro cs spans hlen hok hnl
    have hnil : spans = [] := List.eq_nil_of_length_eq_zero (by omega)
    rw [hnil, expectedRedact_nil]
  | succ n ih =>
    intro cs spans hlen hok hnl
    cases spans with
    | nil => rw [expectedRedact_nil]
    | cons hd rest =>
      obtain ⟨s, e⟩ := hd
      obtain ⟨h1, h2, h3, h4⟩ := spansOk_cons hok
      rw [expectedRedact_cons]
      have hok2 : spansOk (cs.drop e).length
          (rest.map (fun p => (p.1 - e, p.2 - e))) = true := by
        rw [List.length_drop]
        exact spansOk_shift cs.length e rest h4 h3 h2
      have hnl2 : ∀ p ∈ rest.map (fun p => (p.1 - e, p.2 - e)),
          (slice (cs.drop e) p.1 p.2).count '\n' = 0 := by
        intro p hp
        obtain ⟨p0, hp0, hpe⟩ := List.mem_map.mp hp
        have h5 := h3 p0 hp0
        have h7 := (spansOk_all cs.length rest h4) p0 hp0
        rw [← hpe]
        simp only
        have hsl : slice (cs.drop e) (p0.1 - e) (p0.2 - e) = slice cs p0.1 p0.2 := by
          unfold slice
          rw [List.take_drop]
          have ha : e + (p0.2 - e) = p0.2 := by omega
          rw [ha, List.drop_drop]
          have hb2 : e + (p0.1 - e) = p0.1 := by omega
          rw [hb2]
        rw [hsl]
        exact hnl p0 (List.mem_cons_of_mem _ hp0)
      have hlen2 : (rest.map (fun p => (p.1 - e, p.2 - e))).length ≤ n := by
        rw [List.length_map]
        simp only [List.length_cons] at hlen
        omega
      have hdc : cs = cs.take s ++ (slice cs s e ++ cs.drop e) := by
        conv_lhs => rw [← List.take_append_drop s cs]
        rw [drop_decomp cs s e (le_of_lt h1) h2]
      conv_rhs => rw [hdc]
      rw [List.count_append, List.count_append, List.count_append, List.count_append]
      rw [ih (cs.drop e) _ hlen2 hok2 hnl2]
      rw [hnl (s, e) (List.mem_cons_self _ _)]
      have hred : List.count '\n' ("[REDACTED]".data) = 0 := by decide
      rw [hred]
      omega

theorem count_expectedRedact (cs : List Char) (spans : List (Nat × Nat))
    (hok : spansOk cs.length spans = true)
    (hnl : ∀ p ∈ spans, (slice cs p.1 p.2).count '\n' = 0) :
    (expectedRedact cs spans).count '\n' = cs.count '\n' :=
  count_expectedRedact_aux spans.length cs spans (le_refl _) hok hnl

theorem count_analyze (ner : List Char → Except String (List Entity))
    (text : List Char) (spans : List (Nat × Nat)) (g : String)
    (hg : entGroupQualifies g = true)
    (hner : ner text = .ok (mkEntities spans g))
    (hok : spansOk text.length spans = true)
    (hreg : ∀ p ∈ spans, (slice text p.1 p.2).count '\n' = 0) :
    ((analyze_and_redact_text_once ner text).1).count '\n' = text.count '\n' := by
  unfold analyze_and_redact_text_once
  cases hb : isBlank text with
  | true => rfl
  | false =>
    rw [hner]
    show (emailSubList ((applyEntities (mkEntities spans g) text).1)).count '\n' =
      text.count '\n'
    rw [count_emailSubList, applyEntities_sorted spans text g hg hok,
      count_expectedRedact text spans hok hreg]

/-! Claim theorems. -/

/-- C6: if the entity-recognizer call fails on a non-blank text, the
detect and apply primitive returns the original text unmodified, an empty
count dictionary and exactly one High-severity finding describing the
failure; the exception does not escape. -/
theorem C6_ner_failure_recovered (ner : List Char → Except String (List Entity))
    (text : List Char) (msg : String)
    (hb : isBlank text = false) (hf : ner text = .error msg) :
    analyze_and_redact_text_once ner text =
      (text, [], [⟨"NER failed: " ++ msg, "High"⟩]) := by
  unfold analyze_and_redact_text_once
  rw [hb, hf]
  rfl

/-- Witness for C6 at a concrete input. -/
theorem C6_ner_failure_recovered_witness :
    analyze_and_redact_text_once (fun _ => .error "boom") "Call Bob".data =
      ("Call Bob".data, [], [⟨"NER failed: boom", "High"⟩]) :=
  C6_ner_failure_recovered (fun _ => .error "boom") "Call Bob".data "boom"
    (by decide) rfl

/-- C10: on a non-blank text with a successful recognizer call the count
dictionary has exactly the five keys person, organization, location,
email, phone in that order and the phone count is zero (it is never
incremented); on a blank text or a failed recognizer call the dictionary
is empty. -/
theorem C10_counts_shape (ner : List Char → Except String (List Entity))
    (text : List Char) :
    (isBlank text = false → ∀ es, ner text = .ok es →
      ((analyze_and_redact_text_once ner text).2.1).map Prod.fst =
        ["person", "organization", "location", "email", "phone"] ∧
      ((analyze_and_redact_text_once ner text).2.1).lookup "phone" = some 0) ∧
    (isBlank text = true → (analyze_and_redact_text_once ner text).2.1 = []) ∧
    (∀ msg, ner text = .error msg → (analyze_and_redact_text_once ner text).2.1 = []) := by
  refine ⟨fun hb es hok => ?_, fun hb => ?_, fun msg herr => ?_⟩
  · unfold analyze_and_redact_text_once
    rw [hb, hok]
    refine ⟨rfl, ?_⟩
    have hph := applyEntities_phone es text
    simp only [fiveDict, List.lookup]
    norm_num [hph]
    rfl
  · unfold analyze_and_redact_text_once
    rw [hb]
    rfl
  · unfold analyze_and_redact_text_once
    cases hblank : isBlank text
    · rw [herr]
      rfl
    · rfl

/-- Witness for C10 at concrete inputs. -/
theorem C10_counts_shape_witness :
    ((analyze_and_redact_text_once nerNone "Call Bob".data).2.1).map Prod.fst =
      ["person", "organization", "location", "email", "phone"] ∧
    ((analyze_and_redact_text_once nerNone "Call Bob".data).2.1).lookup "phone" = some 0 ∧
    (analyze_and_redact_text_once nerNone "  ".data).2.1 = [] := by
  have h := (C10_counts_shape nerNone "Call Bob".data).1 (by decide) [] rfl
  have h2 := (C10_counts_shape nerNone "  ".data).2.1 (by decide)
  exact ⟨h.1, h.2, h2⟩

/-- C5: when every path of the batch is a file, the orchestrator returns
exactly one record per input; the record of the one file whose dispatch
raised has status error, and every other record has status completed, so
no per-file exception aborts the batch. -/
theorem C5_per_file_isolation (files : List WFile) (k : Nat)
    (hp : ∀ f ∈ files, f.present = true)
    (hcrash : (files[k]?).map (fun f => isCrashOutcome f.outcome) = some true)
    (hothers : ∀ j, j < files.length → j ≠ k →
      (files[j]?).map (fun f => isCrashOutcome f.outcome) = some false) :
    (main_parallel files).length = files.length ∧
    ∀ j, j < files.length →
      ((main_parallel files)[j]?).map FileRec.status =
        some (if j = k then "error" else "completed") := by
  rw [main_parallel_all_present files hp]
  refine ⟨List.length_map _ _, fun j hj => ?_⟩
  rw [List.getElem?_map]
  by_cases hjk : j = k
  · subst hjk
    simp only [if_pos rfl]
    obtain ⟨f, hf, hcf⟩ : ∃ f, files[j]? = some f ∧ isCrashOutcome f.outcome = true := by
      cases hgf : files[j]? with
      | none => rw [hgf] at hcrash; simp at hcrash
      | some f => rw [hgf] at hcrash; simp at hcrash; exact ⟨f, rfl, hcrash⟩
    rw [hf]
    cases hout : f.outcome with
    | done s p v pa => rw [hout] at hcf; simp [isCrashOutcome] at hcf
    | crash m => simp [workerRec, hout]
  · have := hothers j hj hjk
    obtain ⟨f, hf, hcf⟩ : ∃ f, files[j]? = some f ∧ isCrashOutcome f.outcome = false := by
      cases hgf : files[j]? with
      | none => rw [hgf] at this; simp at this
      | some f => rw [hgf] at this; simp at this; exact ⟨f, rfl, this⟩
    rw [hf, if_neg hjk]
    cases hout : f.outcome with
    | done s p v pa => simp [workerRec, hout]
    | crash m => rw [hout] at hcf; simp [isCrashOutcome] at hcf

/-- Witness for C5 on the concrete five-file batch with the third file
corrupted. -/
theorem C5_per_file_isolation_witness :
    (main_parallel demoFiles).length = 5 ∧
    ((main_parallel demoFiles)[2]?).map FileRec.status = some "error" ∧
    ((main_parallel demoFiles)[0]?).map FileRec.status = some "completed" ∧
    ((main_parallel demoFiles)[4]?).map FileRec.status = some "completed" := by
  have h := C5_per_file_isolation demoFiles 2 (by decide) (by rfl)
    (by decide)
  refine ⟨h.1, ?_, ?_, ?_⟩
  · simpa using h.2 2 (by decide)
  · simpa using h.2 0 (by decide)
  · simpa using h.2 4 (by decide)

theorem emailSub_of_ranges_nil {cs : List Char} (h : emailRanges cs = []) :
    emailSubList cs = cs := by
  unfold emailSubList
  rw [h]
  unfold emailSubAux
  exact List.drop_zero cs

theorem splitNl_no_nl {b : List Char} (h : '\n' ∉ b) : splitNl b = [b] := by
  induction b with
  | nil => rfl
  | cons c r ih =>
    have hc : ¬ c = '\n' := fun hc => h (hc ▸ List.mem_cons_self c r)
    have hr : '\n' ∉ r := fun hr => h (List.mem_cons_of_mem c hr)
    unfold splitNl
    rw [if_neg hc, ih hr]

theorem splitNl_append_cons {b t : List Char} (h : '\n' ∉ b) :
    splitNl (b ++ '\n' :: t) = b :: splitNl t := by
  induction b with
  | nil =>
    rw [List.nil_append]
    simp only [splitNl]
    rw [if_pos trivial]
  | cons c r ih =>
    have hc : ¬ c = '\n' := fun hc => h (hc ▸ List.mem_cons_self c r)
    have hr : '\n' ∉ r := fun hr => h (List.mem_cons_of_mem c hr)
    rw [List.cons_append]
    simp only [splitNl]
    rw [if_neg hc, ih hr]

theorem splitNl_joinNl (blocks : List (List Char)) (hne : blocks ≠ [])
    (hnl : ∀ b ∈ blocks, '\n' ∉ b) : splitNl (joinNl blocks) = blocks := by
  induction blocks with
  | nil => exact absurd rfl hne
  | cons b bs ih =>
    have hb : '\n' ∉ b := hnl b (List.mem_cons_self _ _)
    cases bs with
    | nil => exact splitNl_no_nl hb
    | cons b2 bs2 =>
      have hstep : joinNl (b :: b2 :: bs2) = b ++ '\n' :: joinNl (b2 :: bs2) := rfl
      rw [hstep, splitNl_append_cons hb,
        ih (List.cons_ne_nil _ _) (fun x hx => hnl x (List.mem_cons_of_mem b hx))]

theorem zip_self_pair {α : Type} {l : List α} {p : α × α} (hp : p ∈ l.zip l) :
    p.1 = p.2 := by
  induction l with
  | nil => simp at hp
  | cons a r ih =>
    rw [List.zip_cons_cons] at hp
    rcases List.mem_cons.mp hp with h | h
    · rw [h]
    · exact ih h

theorem redact_map_self (l : List (List Char)) (b : List Char) :
    redact_using_map (l.zip l) b = b := by
  unfold redact_using_map
  cases hf : (l.zip l).find? (fun p => p.1 == b) with
  | none => rfl
  | some p =>
    have h1 : p.1 = b := eq_of_beq (by simpa using List.find?_some hf)
    have h2 : p ∈ l.zip l := List.mem_of_find?_eq_some hf
    simp only
    rw [← zip_self_pair h2, h1]

theorem analyze_clean (ner : List Char → Except String (List Entity))
    (text : List Char) (hner : ner text = .ok [])
    (hmail : emailRanges text = []) :
    analyze_and_redact_text_once ner text =
      (text, if isBlank text then [] else fiveDict zeroCounts, []) := by
  unfold analyze_and_redact_text_once
  cases hb : isBlank text with
  | true => rfl
  | false =>
    rw [hner]
    simp only [applyEntities_nil, hmail, emailSub_of_ranges_nil hmail]
    rfl

/-- C4 amended, for the paragraph-walking processors: a non-empty
document whose fragments are free of the join delimiter and in which
nothing is detected (no entities, no email-pattern match) is copied
byte-for-byte, the findings are empty, and the count mapping is the
five-key all-zero dictionary (empty only when the document text is
blank). -/
theorem C4_clean_docx_copied (ner : List Char → Except String (List Entity))
    (blocks : List (List Char)) (saveOk : Bool)
    (hne : blocks ≠ []) (hnl : ∀ b ∈ blocks, '\n' ∉ b)
    (hner : ner (joinNl blocks) = .ok [])
    (hmail : emailRanges (joinNl blocks) = []) :
    process_docx ner (.ok blocks) saveOk =
      ⟨.copyOriginal, if isBlank (joinNl blocks) then [] else fiveDict zeroCounts, []⟩ := by
  simp only [process_docx]
  rw [if_neg hne]
  simp only [analyze_clean ner (joinNl blocks) hner hmail]
  rw [splitNl_joinNl blocks hne hnl]
  have hmap : blocks.map (fun b =>
      if b ≠ [] ∧ ¬ isBlank b then redact_using_map (blocks.zip blocks) b else b) =
      blocks := by
    rw [List.map_congr_left (fun b _ => ?_), List.map_id]
    by_cases hcond : b ≠ [] ∧ ¬ isBlank b
    · rw [if_pos hcond, redact_map_self]
      rfl
    · rw [if_neg hcond]
      rfl
  rw [hmap]
  simp only [ne_eq, not_true_eq_false, if_false, reduceIte]

/-- Witness for the amended C4 on a concrete clean document. -/
theorem C4_clean_docx_copied_witness :
    process_docx nerNone (.ok ["hi there".data]) true =
      ⟨OutAction.copyOriginal, fiveDict zeroCounts, []⟩ := by
  have h := C4_clean_docx_copied nerNone ["hi there".data] true
    (by decide) (by decide) rfl (by decide)
  rw [h]
  decide

/-- C3 amended: for a non-empty fragment list free of the delimiter,
joined with the newline delimiter and redacted under entity spans that are
valid, ascending, non-overlapping and whose regions contain no delimiter,
splitting the redacted blob on the delimiter yields exactly one entry per
fragment.  The extra span conditions are forced by the counterexample: a
span covering the joining newline removes it and collapses the count. -/
theorem C3_fragment_count (frags : List (List Char))
    (ner : List Char → Except String (List Entity))
    (spans : List (Nat × Nat)) (g : String)
    (hne : frags ≠ []) (hnl : ∀ f ∈ frags, '\n' ∉ f)
    (hg : entGroupQualifies g = true)
    (hner : ner (joinNl frags) = .ok (mkEntities spans g))
    (hok : spansOk (joinNl frags).length spans = true)
    (hreg : ∀ p ∈ spans, ((slice (joinNl frags) p.1 p.2).count '\n' = 0)) :
    (splitNl (analyze_and_redact_text_once ner (joinNl frags)).1).length =
      frags.length := by
  rw [splitNl_length, count_analyze ner (joinNl frags) spans g hg hner hok hreg]
  exact count_joinNl frags hne hnl

/-- Witness for the amended C3 on a concrete fragment list. -/
theorem C3_fragment_count_witness :
    (splitNl (analyze_and_redact_text_once nerNone
        (joinNl ["ab".data, "cd".data])).1).length = 2 := by
  have h := C3_fragment_count ["ab".data, "cd".data] nerNone [] "PER"
    (by decide) (by decide) (by decide) rfl (by decide) (by decide)
  exact h

/-- Counterexample for C2: on the end-to-end scenario text the phone
count of the detect and apply primitive is 0, not 1 (no phone counter is
ever incremented), and the phone number 555-123-4567 survives verbatim in
the redacted output, a residual phone-pattern match. -/
theorem C2_phone_never_counted :
    janeOut.2.1.lookup "phone" = some 0 ∧
    janeOut.2.1.lookup "phone" ≠ some 1 ∧
    "555-123-4567".data <:+: janeOut.1 := by decide

/-- C2 amended: the scenario yields the redacted string with both the name
span and the email replaced, zero residual email-pattern matches, counts
person 1, email 1 and phone 0 (the phone number is left in place), and
exactly two High-severity findings. -/
theorem C2_scenario_actual :
    janeOut.1 = "Contact [REDACTED] at [REDACTED] or 555-123-4567".data ∧
    janeOut.2.1 =
      [("person", 1), ("organization", 0), ("location", 0), ("email", 1), ("phone", 0)] ∧
    emailRanges janeOut.1 = [] ∧
    (janeOut.2.2.filter (fun v => v.severity == "High")).length = 2 := by decide

/-- C7: evaluation of the PDF processor at its failing inputs.  When the
container cannot be opened it returns one High-severity finding but writes
no output artifact at all (no fallback copy, unlike the DOCX processor on
the same failure), and when saving fails it likewise leaves no artifact. -/
theorem C7_pdf_missing_artifact :
    (process_pdf nerNone (.error "cannot open stream") true).1 = none ∧
    (process_pdf nerNone (.error "cannot open stream") true).2.2 =
      [⟨"Failed to open PDF: cannot open stream", "High"⟩] ∧
    (process_pdf nerNone (.ok ["hello a@b.cc".data]) false).1 = none ∧
    (process_docx nerNone (.error "cannot open stream") true).action =
      OutAction.copyOriginal := by decide

/-- Counterexample for C4: a clean PDF (one page, no detected PII) is
re-serialized through doc.save rather than copied byte-for-byte, and its
count mapping is the five-key all-zero dictionary, not the empty one. -/
theorem C4_pdf_not_byte_identical :
    process_pdf nerNone (.ok ["hello world".data]) true =
      (some OutAction.saveNew, fiveDict zeroCounts, []) ∧
    some OutAction.saveNew ≠ some OutAction.copyOriginal ∧
    fiveDict zeroCounts ≠ ([] : PiiDict) := by decide

/-- Counterexample for C8: the text handed to the detect and apply
primitive joins every non-empty OCR word, including a word far below the
confidence threshold, so it differs from the join of the surviving words
the claim describes. -/
theorem C8_join_ignores_confidence :
    imageOcrText [lowConfWord] = "a@b.cc".data ∧
    specSurvivingJoin [lowConfWord] = [] ∧
    imageOcrText [lowConfWord] ≠ specSurvivingJoin [lowConfWord] := by decide

/-- C8 amended: an OCR word is painted over exactly when its confidence
reaches the threshold and the paint decision (membership of its stripped
token in the redacted set, or a per-word detector call changing it)
holds; in particular a word below the threshold is never painted.  The
join handed to the detector, however, contains every non-empty word
regardless of confidence (see the counterexample). -/
theorem C8_confidence_gate (ner : List Char → Except String (List Entity))
    (words : List OcrWord) (i : Nat) :
    (i ∈ imagePaintedIdx ner words ↔
      ∃ w, words[i]? = some w ∧ OCR_CONF_THRESHOLD ≤ w.conf ∧
        imagePaintDecision ner w (imageRedactedSet ner words) = true) ∧
    (∀ w, words[i]? = some w → w.conf < OCR_CONF_THRESHOLD →
      i ∉ imagePaintedIdx ner words) := by
  have hchar : i ∈ imagePaintedIdx ner words ↔
      ∃ w, words[i]? = some w ∧ OCR_CONF_THRESHOLD ≤ w.conf ∧
        imagePaintDecision ner w (imageRedactedSet ner words) = true := by
    unfold imagePaintedIdx
    rw [List.mem_filter, List.mem_range]
    constructor
    · rintro ⟨hlt, hp⟩
      cases hw : words[i]? with
      | none => rw [hw] at hp; simp at hp
      | some w =>
        rw [hw] at hp
        simp only at hp
        by_cases hc : w.conf < OCR_CONF_THRESHOLD
        · rw [if_pos hc] at hp; simp at hp
        · rw [if_neg hc] at hp
          exact ⟨w, rfl, le_of_not_lt hc, hp⟩
    · rintro ⟨w, hw, hle, hd⟩
      have hlt : i < words.length := by
        by_contra hge
        rw [List.getElem?_eq_none (le_of_not_lt hge)] at hw
        exact Option.noConfusion hw
      refine ⟨hlt, ?_⟩
      rw [hw]
      simp only
      rw [if_neg (not_lt_of_le hle)]
      exact hd
  refine ⟨hchar, fun w hw hclt hmem => ?_⟩
  obtain ⟨w2, hw2, hle2, _⟩ := hchar.mp hmem
  rw [hw] at hw2
  exact absurd (Option.some.inj hw2 ▸ hle2) (not_le_of_lt hclt)

/-- Witness for the amended C8: a high-confidence email word is painted,
the same word at low confidence is not. -/
theorem C8_confidence_gate_witness :
    0 ∈ imagePaintedIdx nerNone [hiConfWord] ∧
    0 ∉ imagePaintedIdx nerNone [lowConfWord] := by
  constructor
  · exact (C8_confidence_gate nerNone [hiConfWord] 0).1.mpr
      ⟨hiConfWord, rfl, by decide, by decide⟩
  · exact (C8_confidence_gate nerNone [lowConfWord] 0).2 lowConfWord rfl (by decide)

/-- Counterexample for C9: with a recognizer that reports an entity inside
the placeholder text, applying the primitive to its own output changes the
text again, so idempotence fails for an unconstrained recognizer. -/
theorem C9_not_idempotent :
    (analyze_and_redact_text_once bobNer
        ((analyze_and_redact_text_once bobNer "Bob".data).1)).1 ≠
      (analyze_and_redact_text_once bobNer "Bob".data).1 := by decide

theorem analyze_output_cases (ner : List Char → Except String (List Entity))
    (text : List Char) :
    (analyze_and_redact_text_once ner text).1 = text ∨
    ∃ cs, (analyze_and_redact_text_once ner text).1 = emailSubList cs := by
  unfold analyze_and_redact_text_once
  cases hb : isBlank text with
  | true => exact Or.inl rfl
  | false =>
    cases hner : ner text with
    | error e => exact Or.inl rfl
    | ok es => exact Or.inr ⟨(applyEntities es text).1, rfl⟩

/-- C9 amended: provided the recognizer reports no entities for the
already-redacted text (an empty response or a failure), applying the
detect and apply primitive to its own output yields the identical text:
the residual email pass finds nothing because the substituted text
contains no further pattern match. -/
theorem C9_idempotent_when_ner_quiet
    (ner : List Char → Except String (List Entity)) (text : List Char)
    (h : ner ((analyze_and_redact_text_once ner text).1) = .ok [] ∨
         ∃ msg, ner ((analyze_and_redact_text_once ner text).1) = .error msg) :
    (analyze_and_redact_text_once ner
        ((analyze_and_redact_text_once ner text).1)).1 =
      (analyze_and_redact_text_once ner text).1 := by
  rcases analyze_output_cases ner text with hcase | ⟨cs0, hcase⟩
  · rw [hcase]
    exact hcase
  · have hranges : emailRanges ((analyze_and_redact_text_once ner text).1) = [] := by
      rw [hcase]
      exact emailRanges_emailSubList cs0
    generalize hgen : (analyze_and_redact_text_once ner text).1 = out at h hranges ⊢
    unfold analyze_and_redact_text_once
    cases hb : isBlank out with
    | true => rfl
    | false =>
      rcases h with h | ⟨msg, h⟩
      · rw [h]
        show emailSubList ((applyEntities [] out).1) = out
        exact emailSub_of_ranges_nil hranges
      · rw [h]
        rfl

/-- Witness for the amended C9 on a concrete text containing an email. -/
theorem C9_idempotent_when_ner_quiet_witness :
    (analyze_and_redact_text_once nerNone
        ((analyze_and_redact_text_once nerNone "See a@b.cc now".data).1)).1 =
      (analyze_and_redact_text_once nerNone "See a@b.cc now".data).1 :=
  C9_idempotent_when_ner_quiet nerNone "See a@b.cc now".data (Or.inl rfl)

/-- Counterexample for C3: two fragments free of the delimiter, joined and
redacted under a recognizer whose span covers the joining newline, split
back into one piece instead of two. -/
theorem C3_span_crossing_delimiter :
    ["ab".data, "cd".data].length = 2 ∧
    (splitNl (analyze_and_redact_text_once crossNer
        (joinNl ["ab".data, "cd".data])).1).length = 1 ∧
    (1 : Nat) ≠ 2 := by decide

end FileCleanse
